import Mathlib

/-!
The minifier and the bundle assembler of `main.go` of go-llm-bundler.

A shallow embedding of `minifyGoCode`, `collectFiles`, `contains` and the output loop of
`createProjectBundle`, and the properties of them that the specification states.

Go strings are byte sequences: `len(s)` counts bytes and `s[:3]` cuts after three bytes.
The libraries the program calls (`go/parser`, `go/printer`, `encoding/json`) are parameters of
the definitions that use them.
-/

namespace GoLLMBundler

/-! ## Strings -/

/-- A Go string: its bytes. -/
abbrev GoString := List UInt8

/-- The Go string of a text: its UTF-8 encoding. -/
def goString (s : String) : GoString := s.data.flatMap String.utf8EncodeChar

/-! ## The syntax tree of `go/ast`, as far as `minifyGoCode` distinguishes its nodes -/

/-- The type `*ast.CommentGroup`: the texts of its comments. -/
structure CommentGroup where
  List : List GoString
deriving DecidableEq, Repr

/-- The two tokens of a `*ast.GenDecl` whose specifications are `*ast.ValueSpec`. -/
inductive ValueTok where
  | CONST
  | VAR
deriving DecidableEq, Repr

/-- The type `*ast.ImportSpec`; `Path` is the text of the literal, quotes included. -/
structure ImportSpec where
  Doc : Option CommentGroup
  Name : Option GoString
  Path : GoString
  Comment : Option CommentGroup
deriving DecidableEq, Repr

mutual
/-- A node of the tree. `go/parser` gives a `*ast.GenDecl` the specifications that belong to its
`Tok` (`IMPORT`: import specs, `CONST` and `VAR`: value specs, `TYPE`: type specs), so the three
shapes are three constructors and the assertion `x.Specs[i].(*ast.ValueSpec)` cannot fail.
`Other` is every node for which the visitors of `minifyGoCode` have no case (`*ast.FuncDecl`,
statements, expressions, literals, ...): `kind` holds its type and its fields that are not
nodes, `children` its child nodes in the order `ast.Walk` visits them. -/
inductive Node where
  | Ident (Name : GoString)
  | CommentGroup (g : CommentGroup)
  | GenDeclImport (Doc : Option CommentGroup) (Specs : List ImportSpec)
  | GenDeclValue (Doc : Option CommentGroup) (Tok : ValueTok) (Specs : List ValueSpec)
  | GenDeclType (Doc : Option CommentGroup) (Specs : List TypeSpec)
  | Other (kind : String) (children : List Node)
/-- The type `*ast.ValueSpec`. -/
inductive ValueSpec where
  | mk (Doc : Option CommentGroup) (Names : List GoString) (Type_ : Option Node)
      (Values : List Node) (Comment : Option CommentGroup)
/-- The type `*ast.TypeSpec`. -/
inductive TypeSpec where
  | mk (Doc : Option CommentGroup) (Name : GoString) (TypeParams : Option Node) (Type_ : Node)
      (Comment : Option CommentGroup)
end

/-- Field `Names` of a value spec. -/
def ValueSpec.Names : ValueSpec → List GoString
  | .mk _ names _ _ _ => names

/-- Field `Values` of a value spec. -/
def ValueSpec.Values : ValueSpec → List Node
  | .mk _ _ _ values _ => values

/-- Field `Type` of a value spec. -/
def ValueSpec.Type_ : ValueSpec → Option Node
  | .mk _ _ t _ _ => t

/-- Field `Doc` of a value spec. -/
def ValueSpec.Doc : ValueSpec → Option CommentGroup
  | .mk doc _ _ _ _ => doc

/-- Field `Comment` of a value spec. -/
def ValueSpec.Comment : ValueSpec → Option CommentGroup
  | .mk _ _ _ _ comment => comment

/-- The type `*ast.File`: `Comments` is the list of all comment groups of the file, which the
printer prints; `ast.Walk` does not descend into it. -/
structure File where
  Doc : Option CommentGroup
  Name : GoString
  Decls : List Node
  Comments : List CommentGroup

mutual
/-- Number of nodes below and including a node (the measure of the traversals). -/
def Node.size : Node → Nat
  | .Ident _ => 1
  | .CommentGroup _ => 1
  | .GenDeclImport _ specs => 1 + specs.length
  | .GenDeclValue _ _ specs => 1 + sizeValueSpecs specs
  | .GenDeclType _ specs => 1 + sizeTypeSpecs specs
  | .Other _ cs => 1 + sizeNodes cs
/-- Size of a list of nodes. -/
def sizeNodes : List Node → Nat
  | [] => 0
  | n :: ns => 1 + n.size + sizeNodes ns
/-- Size of an optional node. -/
def sizeOpt : Option Node → Nat
  | none => 0
  | some n => 1 + n.size
/-- Size of a value spec. -/
def ValueSpec.size : ValueSpec → Nat
  | .mk _ names t vs _ => 1 + names.length + sizeOpt t + sizeNodes vs
/-- Size of a list of value specs. -/
def sizeValueSpecs : List ValueSpec → Nat
  | [] => 0
  | s :: ss => 1 + s.size + sizeValueSpecs ss
/-- Size of a type spec. -/
def TypeSpec.size : TypeSpec → Nat
  | .mk _ _ tp t _ => 1 + sizeOpt tp + t.size
/-- Size of a list of type specs. -/
def sizeTypeSpecs : List TypeSpec → Nat
  | [] => 0
  | s :: ss => 1 + s.size + sizeTypeSpecs ss
end

/-! ## The second traversal of `minifyGoCode` (lines 52-70) -/

/-- The case `*ast.Ident` of the visitor, on the name of the identifier:
`if len(x.Name) > 3 && level > 2 { x.Name = x.Name[:3] }`. -/
def visitIdent (level : Int) (name : GoString) : GoString :=
  if name.length > 3 ∧ level > 2 then name.take 3 else name

/-- One round of the loop of lines 62-65: the names and the values of `Specs[i]` are appended to
those of `Specs[0]`. -/
def appendSpec (s0 si : ValueSpec) : ValueSpec :=
  match s0 with
  | .mk doc names t values comment => .mk doc (names ++ si.Names) t (values ++ si.Values) comment

/-- The case `*ast.GenDecl` of the visitor, on the specifications of a group with token `tok`:
`if x.Tok == token.VAR && len(x.Specs) > 1 { for i := 1; ...; x.Specs = x.Specs[:1] }`. -/
def visitGenDecl (tok : ValueTok) (specs : List ValueSpec) : List ValueSpec :=
  if tok = ValueTok.VAR ∧ specs.length > 1 then
    match specs with
    | [] => []
    | s0 :: rest => [rest.foldl appendSpec s0]
  else specs

/-- The visitor of lines 52-70 on one node: what it leaves of the node (it always returns
`true`). An import group and a type group are `*ast.GenDecl` whose `Tok` is not `token.VAR`. -/
def visit (level : Int) : Node → Node
  | .Ident name => .Ident (visitIdent level name)
  | .GenDeclValue doc tok specs => .GenDeclValue doc tok (visitGenDecl tok specs)
  | n => n

theorem sizeNodes_append (xs ys : List Node) :
    sizeNodes (xs ++ ys) = sizeNodes xs + sizeNodes ys := by
  induction xs with
  | nil => simp [sizeNodes]
  | cons x xs ih => simp [sizeNodes, ih]; omega

theorem size_appendSpec (s0 si : ValueSpec) :
    (appendSpec s0 si).size + 1 = s0.size + si.size - sizeOpt si.Type_ := by
  cases s0; cases si
  simp [appendSpec, ValueSpec.size, ValueSpec.Names, ValueSpec.Values, ValueSpec.Type_,
    sizeNodes_append]
  omega

theorem size_foldl_appendSpec (rest : List ValueSpec) (s0 : ValueSpec) :
    (rest.foldl appendSpec s0).size ≤ s0.size + sizeValueSpecs rest := by
  induction rest generalizing s0 with
  | nil => simp [sizeValueSpecs]
  | cons s ss ih =>
    have h1 := ih (appendSpec s0 s)
    have h2 := size_appendSpec s0 s
    simp only [List.foldl_cons, sizeValueSpecs]
    omega

theorem size_visitGenDecl (tok : ValueTok) (specs : List ValueSpec) :
    sizeValueSpecs (visitGenDecl tok specs) ≤ sizeValueSpecs specs := by
  unfold visitGenDecl
  split
  · cases specs with
    | nil => simp
    | cons s0 rest =>
      have := size_foldl_appendSpec rest s0
      simp only [sizeValueSpecs]
      omega
  · exact le_refl _

theorem size_visit (level : Int) (n : Node) : (visit level n).size ≤ n.size := by
  cases n <;> simp only [visit, Node.size, le_refl]
  have := size_visitGenDecl ‹ValueTok› ‹List ValueSpec›
  omega

/-- The traversal below an import spec: `Walk` visits its `Name` (when it has one) and its
`Path`, a literal. -/
def inspectImportSpec (level : Int) (s : ImportSpec) : ImportSpec :=
  { s with Name := s.Name.map (visitIdent level) }

mutual
/-- The traversal `ast.Inspect(file, func(n ast.Node) bool { switch ...; return true })` of lines
52-70 from a node: the visitor is called on the node, then the children that the node has
after the call are traversed. -/
def inspectNode (level : Int) (n : Node) : Node :=
  match _h : visit level n with
  | .Ident name => .Ident name
  | .CommentGroup g => .CommentGroup g
  | .GenDeclImport doc specs => .GenDeclImport doc (specs.map (inspectImportSpec level))
  | .GenDeclValue doc tok specs => .GenDeclValue doc tok (inspectValueSpecs level specs)
  | .GenDeclType doc specs => .GenDeclType doc (inspectTypeSpecs level specs)
  | .Other kind cs => .Other kind (inspectNodes level cs)
termination_by n.size
decreasing_by
  all_goals simp_wf
  all_goals have hs := size_visit level n
  all_goals rw [_h] at hs
  all_goals simp only [Node.size] at hs
  all_goals omega
/-- The traversal along a list of nodes. -/
def inspectNodes (level : Int) : List Node → List Node
  | [] => []
  | n :: ns => inspectNode level n :: inspectNodes level ns
termination_by ns => sizeNodes ns
decreasing_by
  all_goals simp_wf
  all_goals simp only [sizeNodes]
  all_goals omega
/-- The traversal of a child that may be absent (`if n.Type != nil { Walk(v, n.Type) }`). -/
def inspectOpt (level : Int) : Option Node → Option Node
  | none => none
  | some n => some (inspectNode level n)
termination_by o => sizeOpt o
decreasing_by
  all_goals simp_wf
  all_goals simp only [sizeOpt]
  all_goals omega
/-- The traversal below a value spec: its names, its type, its values. -/
def inspectValueSpec (level : Int) : ValueSpec → ValueSpec
  | .mk doc names t values comment =>
    .mk doc (names.map (visitIdent level)) (inspectOpt level t) (inspectNodes level values) comment
termination_by s => s.size
decreasing_by
  all_goals simp_wf
  all_goals simp only [ValueSpec.size]
  all_goals omega
/-- The traversal along the specifications of a `var` or `const` group. -/
def inspectValueSpecs (level : Int) : List ValueSpec → List ValueSpec
  | [] => []
  | s :: ss => inspectValueSpec level s :: inspectValueSpecs level ss
termination_by ss => sizeValueSpecs ss
decreasing_by
  all_goals simp_wf
  all_goals simp only [sizeValueSpecs]
  all_goals omega
/-- The traversal below a type spec: its name, its type parameters, its type. -/
def inspectTypeSpec (level : Int) : TypeSpec → TypeSpec
  | .mk doc name tp t comment =>
    .mk doc (visitIdent level name) (inspectOpt level tp) (inspectNode level t) comment
termination_by s => s.size
decreasing_by
  all_goals simp_wf
  all_goals simp only [TypeSpec.size]
  all_goals omega
/-- The traversal along the specifications of a `type` group. -/
def inspectTypeSpecs (level : Int) : List TypeSpec → List TypeSpec
  | [] => []
  | s :: ss => inspectTypeSpec level s :: inspectTypeSpecs level ss
termination_by ss => sizeTypeSpecs ss
decreasing_by
  all_goals simp_wf
  all_goals simp only [sizeTypeSpecs]
  all_goals omega
end

/-! ## The first traversal of `minifyGoCode` (lines 43-48) -/

mutual
/-- The traversal `ast.Inspect(file, func(n ast.Node) bool { if _, ok := n.(*ast.CommentGroup);
ok { return false }; return true })` from a node: the visitor assigns to nothing; at a comment
group it returns `false`, so the comments below the group are not visited. -/
def removeCommentsNode : Node → Node
  | .Ident name => .Ident name
  | .CommentGroup g => .CommentGroup g
  | .GenDeclImport doc specs => .GenDeclImport doc specs
  | .GenDeclValue doc tok specs => .GenDeclValue doc tok (removeCommentsValueSpecs specs)
  | .GenDeclType doc specs => .GenDeclType doc (removeCommentsTypeSpecs specs)
  | .Other kind cs => .Other kind (removeCommentsNodes cs)
/-- The first traversal along a list of nodes. -/
def removeCommentsNodes : List Node → List Node
  | [] => []
  | n :: ns => removeCommentsNode n :: removeCommentsNodes ns
/-- The first traversal of a child that may be absent. -/
def removeCommentsOpt : Option Node → Option Node
  | none => none
  | some n => some (removeCommentsNode n)
/-- The first traversal below a value spec. -/
def removeCommentsValueSpec : ValueSpec → ValueSpec
  | .mk doc names t values comment =>
    .mk doc names (removeCommentsOpt t) (removeCommentsNodes values) comment
/-- The first traversal along the specifications of a `var` or `const` group. -/
def removeCommentsValueSpecs : List ValueSpec → List ValueSpec
  | [] => []
  | s :: ss => removeCommentsValueSpec s :: removeCommentsValueSpecs ss
/-- The first traversal below a type spec. -/
def removeCommentsTypeSpec : TypeSpec → TypeSpec
  | .mk doc name tp t comment => .mk doc name (removeCommentsOpt tp) (removeCommentsNode t) comment
/-- The first traversal along the specifications of a `type` group. -/
def removeCommentsTypeSpecs : List TypeSpec → List TypeSpec
  | [] => []
  | s :: ss => removeCommentsTypeSpec s :: removeCommentsTypeSpecs ss
end

/-! ## The tree that `minifyGoCode` hands to the printer -/

/-- The first traversal from the file node: `Walk` visits `Doc`, `Name` and `Decls`, not
`Comments`. -/
def removeComments (file : File) : File :=
  { file with Decls := removeCommentsNodes file.Decls }

/-- The second traversal from the file node. -/
def inspectFile (level : Int) (file : File) : File :=
  { file with Name := visitIdent level file.Name, Decls := inspectNodes level file.Decls }

/-- The loop of lines 74-79: the specifications of the import groups among the declarations,
appended group after group. -/
def collectImportSpecs (decls : List Node) : List ImportSpec :=
  decls.foldl (fun importSpecs decl =>
    match decl with
    | .GenDeclImport _ specs => importSpecs ++ specs
    | _ => importSpecs) []

/-- Lines 73-82: `if len(importSpecs) > 0 { file.Decls = append([]ast.Decl{&ast.GenDecl{Tok:
token.IMPORT, Specs: importSpecs}}, file.Decls...) }`. -/
def mergeImports (file : File) : File :=
  let importSpecs := collectImportSpecs file.Decls
  if importSpecs.length > 0 then
    { file with Decls := .GenDeclImport none importSpecs :: file.Decls }
  else file

/-- Lines 42-82 of `minifyGoCode`: the tree handed to `printer.Fprint`, from the parsed tree. -/
def minifyTree (level : Int) (file : File) : File :=
  let file := removeComments file
  let file := if level > 1 then inspectFile level file else file
  mergeImports file

/-! ## The whitespace pass of `minifyGoCode` (lines 91-95) -/

/-- The class `\s` of Go regular expressions: `[\t\n\f\r ]`. -/
def isSpace (b : UInt8) : Bool :=
  b = 9 || b = 10 || b = 12 || b = 13 || b = 32

/-- Length of the run of `\s` bytes at the start of a text. -/
def spaceRun (s : GoString) : Nat := (s.takeWhile isSpace).length

/-- Length of the match of `\s+` at the start of a text, if there is one. -/
def matchSpaces (s : GoString) : Option Nat :=
  if spaceRun s > 0 then some (spaceRun s) else none

/-- Length of the match of `\{\s+` at the start of a text, if there is one. -/
def matchBraceSpaces : GoString → Option Nat
  | [] => none
  | c :: cs => if c = 0x7B ∧ spaceRun cs > 0 then some (1 + spaceRun cs) else none

/-- Length of the match of `\s+\}` at the start of a text, if there is one: `\s+` takes the
whole run (after a shorter one comes a `\s` byte, not the closing brace), then the brace. -/
def matchSpacesBrace (s : GoString) : Option Nat :=
  if spaceRun s > 0 ∧ (s.drop (spaceRun s)).head? = some 0x7D then some (spaceRun s + 1) else none

/-- Length of the match of `;\s*` at the start of a text, if there is one. -/
def matchSemiSpaces : GoString → Option Nat
  | [] => none
  | c :: cs => if c = 0x3B then some (1 + spaceRun cs) else none

/-- The call `regexp.MustCompile(p).ReplaceAllString(s, repl)` for a pattern `p` that matches no
empty text, `m` giving the length of the match of `p` at the start of a text (at least 1):
the text is scanned from the left, a match is replaced by `repl` and the scan goes on behind
it, a byte at which `p` does not match is copied. -/
def replaceAll (m : GoString → Option Nat) (repl : GoString) (s : GoString) : GoString :=
  match s with
  | [] => []
  | c :: cs =>
    match m (c :: cs) with
    | some n => repl ++ replaceAll m repl (cs.drop (n - 1))
    | none => c :: replaceAll m repl cs
termination_by s.length
decreasing_by
  all_goals simp_wf
  all_goals omega

/-- Lines 91-95: the four replacements, in their order. -/
def removeWhitespace (minified : GoString) : GoString :=
  let minified := replaceAll matchSpaces [0x20] minified
  let minified := replaceAll matchBraceSpaces [0x7B] minified
  let minified := replaceAll matchSpacesBrace [0x7D] minified
  replaceAll matchSemiSpaces [0x3B] minified

/-- The function `minifyGoCode`; `parse` is `parser.ParseFile(fset, "", code,
parser.ParseComments)` and `print` is `printer.Fprint(&buf, fset, file)`. -/
def minifyGoCode {ε : Type} (parse : GoString → Except ε File) (print : File → Except ε GoString)
    (code : GoString) (level : Int) : Except ε GoString :=
  match parse code with
  | .error err => .error err
  | .ok file =>
    match print (minifyTree level file) with
    | .error err => .error err
    | .ok minified => .ok (removeWhitespace minified)

/-! ## `collectFiles` and `contains` -/

/-- A Go map with string keys, as the list of its entries: a key occurs once, a new key goes
to the end. -/
abbrev GoMap (V : Type) := List (GoString × V)

/-- The read `m[k]`, `none` for a missing key. -/
def GoMap.get {V : Type} (m : GoMap V) (k : GoString) : Option V :=
  match m with
  | [] => none
  | (k', v) :: rest => if k' = k then some v else GoMap.get rest k

/-- The assignment `m[k] = v`. -/
def GoMap.set {V : Type} (m : GoMap V) (k : GoString) (v : V) : GoMap V :=
  match m with
  | [] => [(k, v)]
  | (k', v') :: rest => if k' = k then (k, v) :: rest else (k', v') :: GoMap.set rest k v

/-- The type `BundleMeta`; a `nil` slice is the empty list, a `nil` map the empty map. -/
structure BundleMeta where
  D : List GoString
  I : List GoString
  S : GoMap (List GoString)

/-- The function `contains`. -/
def contains (slice : List GoString) (item : GoString) : Bool :=
  match slice with
  | [] => false
  | a :: rest => if a = item then true else contains rest item

/-- The call `strings.Trim(s, "\"")`: the quote bytes at both ends of `s` are cut off. -/
def trimQuotes (s : GoString) : GoString :=
  ((s.dropWhile (· = 0x22)).reverse.dropWhile (· = 0x22)).reverse

/-- What `collectFiles` reads of the `*ast.File` of the second parse: the package name and
the import specs. -/
structure Header where
  Name : GoString
  Imports : List ImportSpec

/-- The variables `meta.S`, `files` and `allImports` of `collectFiles`. -/
structure Collected where
  S : GoMap (List GoString)
  files : GoMap GoString
  allImports : List GoString

/-- The loop of lines 142-147 over `f.Imports`. -/
def addImports (allImports : List GoString) (imports : List ImportSpec) : List GoString :=
  imports.foldl (fun allImports imp =>
    let impPath := trimQuotes imp.Path
    if !contains allImports impPath then allImports ++ [impPath] else allImports) allImports

/-- Lines 134-148: what the walk function does with a file once `minifyGoCode` has returned
`minified` for it; `parseImports` is `parser.ParseFile(fset, "", minified,
parser.ImportsOnly)`. -/
def recordFile {ε : Type} (parseImports : GoString → Except ε Header) (st : Collected)
    (relPath minified : GoString) : Collected :=
  let files := st.files.set relPath minified
  match parseImports minified with
  | .ok f =>
    let pkg := f.Name
    { S := st.S.set pkg ((st.S.get pkg).getD [] ++ [relPath]),
      files := files,
      allImports := addImports st.allImports f.Imports }
  | .error _ => { st with files := files }

/-- The walk of `collectFiles` over the files that reach line 129 (regular files with the
suffix `.go` outside the excluded directories, read without error), in the order of the
walk, each with its relative path and its content: the first error of `minifyGoCode` ends the
walk and is its result. -/
def walkFiles {ε : Type} (parse : GoString → Except ε File) (print : File → Except ε GoString)
    (parseImports : GoString → Except ε Header) (level : Int) (st : Collected) :
    List (GoString × GoString) → Collected × Option ε
  | [] => (st, none)
  | (relPath, content) :: rest =>
    match minifyGoCode parse print content level with
    | .error err => (st, some err)
    | .ok minified =>
      walkFiles parse print parseImports level (recordFile parseImports st relPath minified) rest

/-- The function `collectFiles`, `level` being `config.MinifyLevel`: it returns `meta`, `files`
and the error of the walk. -/
def collectFiles {ε : Type} (parse : GoString → Except ε File) (print : File → Except ε GoString)
    (parseImports : GoString → Except ε Header) (level : Int)
    (entries : List (GoString × GoString)) : BundleMeta × GoMap GoString × Option ε :=
  let r := walkFiles parse print parseImports level { S := [], files := [], allImports := [] }
    entries
  ({ D := [], I := r.1.allImports, S := r.1.S }, r.1.files, r.2)

/-! ## The output of `createProjectBundle` (lines 193-202) -/

/-- The call `fmt.Sprintf("###FILE:%s###\n%s\n", path, content)`. -/
def fileSection (path content : GoString) : GoString :=
  goString "###FILE:" ++ path ++ goString "###\n" ++ content ++ goString "\n"

/-- Lines 198-202: `output := string(metaJSON) + "\n"`, then `output += fmt.Sprintf(...)` for
the entries of `files` in the order in which `range` yields them. -/
def bundleOutput (metaJSON : GoString) (ranged : List (GoString × GoString)) : GoString :=
  ranged.foldl (fun output e => output ++ fileSection e.1 e.2) (metaJSON ++ goString "\n")

/-- Lines 187-191: `meta.D = dependencies`, and `meta.S = nil` unless `config.IncludeMeta`. -/
def finalMeta (bm : BundleMeta) (dependencies : List GoString) (includeMeta : Bool) :
    BundleMeta :=
  let bm := { bm with D := dependencies }
  if !includeMeta then { bm with S := [] } else bm

/-- Lines 187-202 of `createProjectBundle`, once `collectFiles` has returned `bm` and the
records and `readGoMod` has returned `dependencies`: the text handed to `os.WriteFile`, or the
error of `json.Marshal`; `marshal` is `json.Marshal` and `ranged` the entries of `files` in
the order in which `range files` yields them. -/
def createProjectBundle {ε : Type} (marshal : BundleMeta → Except ε GoString)
    (bm : BundleMeta) (dependencies : List GoString) (includeMeta : Bool)
    (ranged : List (GoString × GoString)) : Except ε GoString :=
  match marshal (finalMeta bm dependencies includeMeta) with
  | .error err => .error err
  | .ok metaJSON => .ok (bundleOutput metaJSON ranged)

/-- The texts that `createProjectBundle` can write for the records `files`: `range` over a Go
map yields every entry once, in an order that the language leaves open. -/
def IsBundle {ε : Type} (marshal : BundleMeta → Except ε GoString) (bm : BundleMeta)
    (dependencies : List GoString) (includeMeta : Bool) (files : GoMap GoString)
    (output : GoString) : Prop :=
  ∃ ranged, ranged.Perm files ∧
    createProjectBundle marshal bm dependencies includeMeta ranged = .ok output

/-! ## The identifiers of a tree -/

mutual
/-- The names of the identifier nodes below and including a node, in the order of `ast.Walk`. -/
def identsNode : Node → List GoString
  | .Ident name => [name]
  | .CommentGroup _ => []
  | .GenDeclImport _ specs => specs.flatMap fun s => s.Name.toList
  | .GenDeclValue _ _ specs => identsValueSpecs specs
  | .GenDeclType _ specs => identsTypeSpecs specs
  | .Other _ cs => identsNodes cs
/-- The identifiers below a list of nodes. -/
def identsNodes : List Node → List GoString
  | [] => []
  | n :: ns => identsNode n ++ identsNodes ns
/-- The identifiers below a child that may be absent. -/
def identsOpt : Option Node → List GoString
  | none => []
  | some n => identsNode n
/-- The identifiers below a value spec. -/
def identsValueSpec : ValueSpec → List GoString
  | .mk _ names t values _ => names ++ identsOpt t ++ identsNodes values
/-- The identifiers below the specifications of a `var` or `const` group. -/
def identsValueSpecs : List ValueSpec → List GoString
  | [] => []
  | s :: ss => identsValueSpec s ++ identsValueSpecs ss
/-- The identifiers below a type spec. -/
def identsTypeSpec : TypeSpec → List GoString
  | .mk _ name tp t _ => name :: (identsOpt tp ++ identsNode t)
/-- The identifiers below the specifications of a `type` group. -/
def identsTypeSpecs : List TypeSpec → List GoString
  | [] => []
  | s :: ss => identsTypeSpec s ++ identsTypeSpecs ss
end

/-- The names of all identifier nodes of a file: the package name, then those of the
declarations. -/
def identsFile (file : File) : List GoString := file.Name :: identsNodes file.Decls

mutual
/-- The tree with `g` applied to the name of every identifier node. -/
def mapIdentsNode (g : GoString → GoString) : Node → Node
  | .Ident name => .Ident (g name)
  | .CommentGroup c => .CommentGroup c
  | .GenDeclImport doc specs => .GenDeclImport doc (specs.map fun s => { s with Name := s.Name.map g })
  | .GenDeclValue doc tok specs => .GenDeclValue doc tok (mapIdentsValueSpecs g specs)
  | .GenDeclType doc specs => .GenDeclType doc (mapIdentsTypeSpecs g specs)
  | .Other kind cs => .Other kind (mapIdentsNodes g cs)
/-- The list of trees with `g` applied to every identifier. -/
def mapIdentsNodes (g : GoString → GoString) : List Node → List Node
  | [] => []
  | n :: ns => mapIdentsNode g n :: mapIdentsNodes g ns
/-- The child that may be absent, with `g` applied to every identifier. -/
def mapIdentsOpt (g : GoString → GoString) : Option Node → Option Node
  | none => none
  | some n => some (mapIdentsNode g n)
/-- The value spec with `g` applied to every identifier. -/
def mapIdentsValueSpec (g : GoString → GoString) : ValueSpec → ValueSpec
  | .mk doc names t values comment =>
    .mk doc (names.map g) (mapIdentsOpt g t) (mapIdentsNodes g values) comment
/-- The value specs with `g` applied to every identifier. -/
def mapIdentsValueSpecs (g : GoString → GoString) : List ValueSpec → List ValueSpec
  | [] => []
  | s :: ss => mapIdentsValueSpec g s :: mapIdentsValueSpecs g ss
/-- The type spec with `g` applied to every identifier. -/
def mapIdentsTypeSpec (g : GoString → GoString) : TypeSpec → TypeSpec
  | .mk doc name tp t comment => .mk doc (g name) (mapIdentsOpt g tp) (mapIdentsNode g t) comment
/-- The type specs with `g` applied to every identifier. -/
def mapIdentsTypeSpecs (g : GoString → GoString) : List TypeSpec → List TypeSpec
  | [] => []
  | s :: ss => mapIdentsTypeSpec g s :: mapIdentsTypeSpecs g ss
end

/-- The file with `g` applied to the name of every identifier node. -/
def mapIdentsFile (g : GoString → GoString) (file : File) : File :=
  { file with Name := g file.Name, Decls := mapIdentsNodes g file.Decls }

mutual
/-- The node without its comments: every `Doc` and `Comment` below it is taken off and
every comment group emptied. -/
def withoutCommentsNode : Node → Node
  | .Ident name => .Ident name
  | .CommentGroup _ => .CommentGroup ⟨[]⟩
  | .GenDeclImport _ specs =>
    .GenDeclImport none (specs.map fun s => { s with Doc := none, Comment := none })
  | .GenDeclValue _ tok specs => .GenDeclValue none tok (withoutCommentsValueSpecs specs)
  | .GenDeclType _ specs => .GenDeclType none (withoutCommentsTypeSpecs specs)
  | .Other kind cs => .Other kind (withoutCommentsNodes cs)
/-- The nodes without their comments. -/
def withoutCommentsNodes : List Node → List Node
  | [] => []
  | n :: ns => withoutCommentsNode n :: withoutCommentsNodes ns
/-- The child that may be absent, without its comments. -/
def withoutCommentsOpt : Option Node → Option Node
  | none => none
  | some n => some (withoutCommentsNode n)
/-- The value spec without its comments. -/
def withoutCommentsValueSpec : ValueSpec → ValueSpec
  | .mk _ names t values _ =>
    .mk none names (withoutCommentsOpt t) (withoutCommentsNodes values) none
/-- The value specs without their comments. -/
def withoutCommentsValueSpecs : List ValueSpec → List ValueSpec
  | [] => []
  | s :: ss => withoutCommentsValueSpec s :: withoutCommentsValueSpecs ss
/-- The type spec without its comments. -/
def withoutCommentsTypeSpec : TypeSpec → TypeSpec
  | .mk _ name tp t _ => .mk none name (withoutCommentsOpt tp) (withoutCommentsNode t) none
/-- The type specs without their comments. -/
def withoutCommentsTypeSpecs : List TypeSpec → List TypeSpec
  | [] => []
  | s :: ss => withoutCommentsTypeSpec s :: withoutCommentsTypeSpecs ss
end

/-- A name cut to its first three bytes when it has more than three. -/
def firstThree (name : GoString) : GoString :=
  if name.length > 3 then name.take 3 else name

/-! ## Declarations of a file, by kind -/

/-- The specifications of a declaration that is an import group, none for another node. -/
def importSpecsOf : Node → List ImportSpec
  | .GenDeclImport _ specs => specs
  | _ => []

/-- Whether a declaration is an import group. -/
def isImportDecl : Node → Bool
  | .GenDeclImport _ _ => true
  | _ => false

/-- The kind of a declaration: that of a `*ast.GenDecl` is its token, that of another node
its Go type. -/
def declKind : Node → String
  | .Ident _ => "Ident"
  | .CommentGroup _ => "CommentGroup"
  | .GenDeclImport _ _ => "GenDecl IMPORT"
  | .GenDeclValue _ .CONST _ => "GenDecl CONST"
  | .GenDeclValue _ .VAR _ => "GenDecl VAR"
  | .GenDeclType _ _ => "GenDecl TYPE"
  | .Other kind _ => kind

/-- The declarations that are no import groups, in their order. -/
def otherDecls (decls : List Node) : List Node := decls.filter fun d => !isImportDecl d

/-- The path literals of the specifications of an import group. -/
def importLiterals (d : Node) : List GoString := (importSpecsOf d).map fun s => s.Path

/-- The specification lists of the `var` groups among the declarations, in their order. -/
def varGroups : List Node → List (List ValueSpec)
  | [] => []
  | .GenDeclValue _ .VAR specs :: ds => specs :: varGroups ds
  | _ :: ds => varGroups ds

/-- The names of each `var` group among the declarations: those of its specifications, one
after the other. -/
def varGroupNames (decls : List Node) : List (List GoString) :=
  (varGroups decls).map fun specs => specs.flatMap ValueSpec.Names

/-- The values of each `var` group among the declarations. -/
def varGroupValues (decls : List Node) : List (List Node) :=
  (varGroups decls).map fun specs => specs.flatMap ValueSpec.Values

/-! ## Example files -/

/-- The literal `v` of kind `INT`. -/
def intLit (v : String) : Node := .Other ("BasicLit INT " ++ v) []

/-- The group `var name = v`. -/
def varDecl (name v : String) : Node :=
  .GenDeclValue none .VAR [.mk none [goString name] none [intLit v] none]

/-- The file `package p; var x = 1; var y = 2; var z = 3`. -/
def threeVarGroups : File :=
  { Doc := none, Name := goString "p", Comments := [],
    Decls := [varDecl "x" "1", varDecl "y" "2", varDecl "z" "3"] }

/-- The file `package p; var ( x = 1; y = 2; z = 3 )`. -/
def oneVarGroup : File :=
  { Doc := none, Name := goString "p", Comments := [],
    Decls := [.GenDeclValue none .VAR [.mk none [goString "x"] none [intLit "1"] none,
      .mk none [goString "y"] none [intLit "2"] none,
      .mk none [goString "z"] none [intLit "3"] none]] }

/-- The import spec of the path literal `lit`, without a name. -/
def importSpec (lit : String) : ImportSpec :=
  { Doc := none, Name := none, Path := goString lit, Comment := none }

/-- The file `package p; import "m1"; var x = 1`. -/
def oneImportFile : File :=
  { Doc := none, Name := goString "p", Comments := [],
    Decls := [.GenDeclImport none [importSpec "\"m1\""], varDecl "x" "1"] }

/-- The file `package p; import "m1"; import "m2"; var x = 1`, of two import groups. -/
def twoImportGroups : File :=
  { Doc := none, Name := goString "p", Comments := [],
    Decls := [.GenDeclImport none [importSpec "\"m1\""],
      .GenDeclImport none [importSpec "\"m2\""], varDecl "x" "1"] }

/-- The file `package p`, then the comment `// c`, then `var x int`. -/
def commentedFile : File :=
  { Doc := none, Name := goString "p", Comments := [⟨[goString "// c"]⟩],
    Decls := [.GenDeclValue (some ⟨[goString "// c"]⟩) .VAR
      [.mk none [goString "x"] (some (.Ident (goString "int"))) [] none]] }

/-- The file `package p; var 日本語 int`: the variable has a name of three characters. -/
def unicodeFile : File :=
  { Doc := none, Name := goString "p", Comments := [],
    Decls := [.GenDeclValue none .VAR
      [.mk none [goString "日本語"] (some (.Ident (goString "int"))) [] none]] }

/-! ## Notions of the statements on the whitespace pass, the walk and the bundle -/

/-- One text comes from another by deleting whitespace bytes. -/
inductive Del : GoString → GoString → Prop
  | nil : Del [] []
  | keep (c : UInt8) {s t : GoString} : Del s t → Del (c :: s) (c :: t)
  | drop (w : UInt8) {s t : GoString} : isSpace w = true → Del s t → Del (w :: s) t

/-- No two whitespace bytes of a text are neighbours. -/
def Apart (s : GoString) : Prop := s.Chain' fun a b => ¬(isSpace a = true ∧ isSpace b = true)

/-- The elements of a list, each once, in the order in which they first occur. -/
def firstOccurrences : List GoString → List GoString
  | [] => []
  | x :: xs => x :: (firstOccurrences xs).filter (fun y => decide (y ≠ x))

/-- The files that the walk handles, each with its relative path and the text that
`minifyGoCode` returns for it: those before the first file for which `minifyGoCode` fails. -/
def processed {ε : Type} (parse : GoString → Except ε File) (print : File → Except ε GoString)
    (level : Int) : List (GoString × GoString) → List (GoString × GoString)
  | [] => []
  | (relPath, content) :: rest =>
    match minifyGoCode parse print content level with
    | .error _ => []
    | .ok minified => (relPath, minified) :: processed parse print level rest

/-- Of the handled files, those whose second parse succeeds, each with its relative path and
the header that this parse returns. -/
def reparsed {ε : Type} (parseImports : GoString → Except ε Header)
    (files : List (GoString × GoString)) : List (GoString × Header) :=
  files.filterMap fun e =>
    match parseImports e.2 with
    | .ok f => some (e.1, f)
    | .error _ => none

/-- The import paths of the headers, as `collectFiles` reads them: the literals without their
quotes, file after file. -/
def importPaths (hs : List (GoString × Header)) : List GoString :=
  hs.flatMap fun h => h.2.Imports.map fun imp => trimQuotes imp.Path

/-- The text of lines 198-202 for the records in the order `ranged`: the metadata, a newline,
and for each record the marker line, the text and a newline. -/
def bundleText (metaJSON : GoString) (ranged : List (GoString × GoString)) : GoString :=
  metaJSON ++ goString "\n" ++ ranged.flatMap fun e => fileSection e.1 e.2

/-! ## Stand-ins for the libraries, for the examples -/

/-- A parser for the examples: the file `package <code>` without declarations. -/
def packageOnly (code : GoString) : Except Unit File :=
  .ok { Doc := none, Name := code, Decls := [], Comments := [] }

/-- A printer for the examples: the package name. -/
def printName (file : File) : Except Unit GoString := .ok file.Name

/-- A second parse for the examples that always fails. -/
def rejectHeader (_ : GoString) : Except Unit Header := .error ()

/-- A `json.Marshal` for the examples: the text `{}` for every metadata. -/
def marshalEmpty (_ : BundleMeta) : Except Unit GoString := .ok (goString "\x7b\x7d")

/-! ## Lemmas on the traversals -/

theorem inspectNode_Ident (level : Int) (name : GoString) :
    inspectNode level (.Ident name) = .Ident (visitIdent level name) := by
  rw [inspectNode]; simp [visit]

theorem inspectNode_GenDeclValue (level : Int) (doc : Option CommentGroup) (tok : ValueTok)
    (specs : List ValueSpec) :
    inspectNode level (.GenDeclValue doc tok specs)
      = .GenDeclValue doc tok (inspectValueSpecs level (visitGenDecl tok specs)) := by
  rw [inspectNode]; simp [visit]

theorem inspectNode_Other (level : Int) (kind : String) (cs : List Node) :
    inspectNode level (.Other kind cs) = .Other kind (inspectNodes level cs) := by
  rw [inspectNode]; simp [visit]


theorem inspectNode_GenDeclImport (level : Int) (doc : Option CommentGroup)
    (specs : List ImportSpec) :
    inspectNode level (.GenDeclImport doc specs)
      = .GenDeclImport doc (specs.map (inspectImportSpec level)) := by
  rw [inspectNode]; simp [visit]

theorem inspectNode_GenDeclType (level : Int) (doc : Option CommentGroup)
    (specs : List TypeSpec) :
    inspectNode level (.GenDeclType doc specs)
      = .GenDeclType doc (inspectTypeSpecs level specs) := by
  rw [inspectNode]; simp [visit]

theorem inspectNode_CommentGroup (level : Int) (g : CommentGroup) :
    inspectNode level (.CommentGroup g) = .CommentGroup g := by
  rw [inspectNode]; simp [visit]

theorem inspectNodes_append (level : Int) (xs ys : List Node) :
    inspectNodes level (xs ++ ys) = inspectNodes level xs ++ inspectNodes level ys := by
  induction xs with
  | nil => simp [inspectNodes]
  | cons x xs ih => simp [inspectNodes, ih]

theorem foldl_appendSpec (rest : List ValueSpec) (doc : Option CommentGroup)
    (names : List GoString) (t : Option Node) (values : List Node)
    (comment : Option CommentGroup) :
    rest.foldl appendSpec (.mk doc names t values comment)
      = .mk doc (names ++ rest.flatMap ValueSpec.Names) t
          (values ++ rest.flatMap ValueSpec.Values) comment := by
  induction rest generalizing names values with
  | nil => simp
  | cons s ss ih => simp [appendSpec, ih, List.flatMap_cons]

theorem firstThree_eq : visitIdent 3 = firstThree := by
  funext name; simp [visitIdent, firstThree]

theorem visitIdent_two : visitIdent 2 = id := by
  funext name; simp [visitIdent]

theorem mapIdentsNodes_append (g : GoString → GoString) (xs ys : List Node) :
    mapIdentsNodes g (xs ++ ys) = mapIdentsNodes g xs ++ mapIdentsNodes g ys := by
  induction xs with
  | nil => simp [mapIdentsNodes]
  | cons x xs ih => simp [mapIdentsNodes, ih]

mutual
theorem inspect_three_node : (n : Node) →
    inspectNode 3 n = mapIdentsNode firstThree (inspectNode 2 n)
  | .Ident name => by
    simp [inspectNode_Ident, mapIdentsNode, firstThree_eq, visitIdent_two]
  | .CommentGroup g => by simp [inspectNode_CommentGroup, mapIdentsNode]
  | .GenDeclImport doc specs => by
    simp [inspectNode_GenDeclImport, mapIdentsNode, inspectImportSpec, firstThree_eq,
      visitIdent_two]
  | .GenDeclValue doc tok specs => by
    simp only [inspectNode_GenDeclValue, mapIdentsNode]
    rw [inspect_three_visited tok specs]
  | .GenDeclType doc specs => by
    simp only [inspectNode_GenDeclType, mapIdentsNode]
    rw [inspect_three_typeSpecs specs]
  | .Other kind cs => by
    simp only [inspectNode_Other, mapIdentsNode]
    rw [inspect_three_nodes cs]
theorem inspect_three_nodes : (ns : List Node) →
    inspectNodes 3 ns = mapIdentsNodes firstThree (inspectNodes 2 ns)
  | [] => by simp [inspectNodes, mapIdentsNodes]
  | n :: ns => by
    simp only [inspectNodes, mapIdentsNodes]
    rw [inspect_three_node n, inspect_three_nodes ns]
theorem inspect_three_opt : (o : Option Node) →
    inspectOpt 3 o = mapIdentsOpt firstThree (inspectOpt 2 o)
  | none => by simp [inspectOpt, mapIdentsOpt]
  | some n => by
    simp only [inspectOpt, mapIdentsOpt]
    rw [inspect_three_node n]
theorem inspect_three_valueSpec : (s : ValueSpec) →
    inspectValueSpec 3 s = mapIdentsValueSpec firstThree (inspectValueSpec 2 s)
  | .mk doc names t values comment => by
    simp only [inspectValueSpec, mapIdentsValueSpec]
    rw [inspect_three_opt t, inspect_three_nodes values]
    simp [firstThree_eq, visitIdent_two]
theorem inspect_three_valueSpecs : (ss : List ValueSpec) →
    inspectValueSpecs 3 ss = mapIdentsValueSpecs firstThree (inspectValueSpecs 2 ss)
  | [] => by simp [inspectValueSpecs, mapIdentsValueSpecs]
  | s :: ss => by
    simp only [inspectValueSpecs, mapIdentsValueSpecs]
    rw [inspect_three_valueSpec s, inspect_three_valueSpecs ss]
theorem inspect_three_values : (ss : List ValueSpec) →
    inspectNodes 3 (ss.flatMap ValueSpec.Values)
      = mapIdentsNodes firstThree (inspectNodes 2 (ss.flatMap ValueSpec.Values))
  | [] => by simp [inspectNodes, mapIdentsNodes]
  | .mk doc names t values comment :: ss => by
    simp only [List.flatMap_cons, ValueSpec.Values, inspectNodes_append]
    rw [inspect_three_nodes values, inspect_three_values ss, mapIdentsNodes_append]
theorem inspect_three_visited (tok : ValueTok) : (ss : List ValueSpec) →
    inspectValueSpecs 3 (visitGenDecl tok ss)
      = mapIdentsValueSpecs firstThree (inspectValueSpecs 2 (visitGenDecl tok ss))
  | [] => by simp [visitGenDecl, inspectValueSpecs, mapIdentsValueSpecs]
  | .mk doc names t values comment :: rest => by
    unfold visitGenDecl
    split
    · simp only [foldl_appendSpec, inspectValueSpecs, inspectValueSpec, mapIdentsValueSpecs,
        mapIdentsValueSpec]
      rw [inspect_three_opt t, inspectNodes_append, inspectNodes_append,
        inspect_three_nodes values, inspect_three_values rest, mapIdentsNodes_append]
      simp [firstThree_eq, visitIdent_two]
    · exact inspect_three_valueSpecs _
theorem inspect_three_typeSpec : (s : TypeSpec) →
    inspectTypeSpec 3 s = mapIdentsTypeSpec firstThree (inspectTypeSpec 2 s)
  | .mk doc name tp t comment => by
    simp only [inspectTypeSpec, mapIdentsTypeSpec]
    rw [inspect_three_opt tp, inspect_three_node t]
    simp [firstThree_eq, visitIdent_two]
theorem inspect_three_typeSpecs : (ss : List TypeSpec) →
    inspectTypeSpecs 3 ss = mapIdentsTypeSpecs firstThree (inspectTypeSpecs 2 ss)
  | [] => by simp [inspectTypeSpecs, mapIdentsTypeSpecs]
  | s :: ss => by
    simp only [inspectTypeSpecs, mapIdentsTypeSpecs]
    rw [inspect_three_typeSpec s, inspect_three_typeSpecs ss]
end


mutual
theorem removeCommentsNode_eq : (n : Node) → removeCommentsNode n = n
  | .Ident _ => by simp [removeCommentsNode]
  | .CommentGroup _ => by simp [removeCommentsNode]
  | .GenDeclImport _ _ => by simp [removeCommentsNode]
  | .GenDeclValue _ _ specs => by
    simp only [removeCommentsNode]; rw [removeCommentsValueSpecs_eq specs]
  | .GenDeclType _ specs => by
    simp only [removeCommentsNode]; rw [removeCommentsTypeSpecs_eq specs]
  | .Other _ cs => by
    simp only [removeCommentsNode]; rw [removeCommentsNodes_eq cs]
theorem removeCommentsNodes_eq : (ns : List Node) → removeCommentsNodes ns = ns
  | [] => by simp [removeCommentsNodes]
  | n :: ns => by
    simp only [removeCommentsNodes]; rw [removeCommentsNode_eq n, removeCommentsNodes_eq ns]
theorem removeCommentsOpt_eq : (o : Option Node) → removeCommentsOpt o = o
  | none => by simp [removeCommentsOpt]
  | some n => by simp only [removeCommentsOpt]; rw [removeCommentsNode_eq n]
theorem removeCommentsValueSpec_eq : (s : ValueSpec) → removeCommentsValueSpec s = s
  | .mk _ _ t values _ => by
    simp only [removeCommentsValueSpec]
    rw [removeCommentsOpt_eq t, removeCommentsNodes_eq values]
theorem removeCommentsValueSpecs_eq : (ss : List ValueSpec) → removeCommentsValueSpecs ss = ss
  | [] => by simp [removeCommentsValueSpecs]
  | s :: ss => by
    simp only [removeCommentsValueSpecs]
    rw [removeCommentsValueSpec_eq s, removeCommentsValueSpecs_eq ss]
theorem removeCommentsTypeSpec_eq : (s : TypeSpec) → removeCommentsTypeSpec s = s
  | .mk _ _ tp t _ => by
    simp only [removeCommentsTypeSpec]
    rw [removeCommentsOpt_eq tp, removeCommentsNode_eq t]
theorem removeCommentsTypeSpecs_eq : (ss : List TypeSpec) → removeCommentsTypeSpecs ss = ss
  | [] => by simp [removeCommentsTypeSpecs]
  | s :: ss => by
    simp only [removeCommentsTypeSpecs]
    rw [removeCommentsTypeSpec_eq s, removeCommentsTypeSpecs_eq ss]
end

theorem removeComments_eq (file : File) : removeComments file = file := by
  simp [removeComments, removeCommentsNodes_eq]

theorem inspectNodes_eq_map (level : Int) (ns : List Node) :
    inspectNodes level ns = ns.map (inspectNode level) := by
  induction ns with
  | nil => simp [inspectNodes]
  | cons n ns ih => simp [inspectNodes, ih]

theorem inspectValueSpecs_eq_map (level : Int) (ss : List ValueSpec) :
    inspectValueSpecs level ss = ss.map (inspectValueSpec level) := by
  induction ss with
  | nil => simp [inspectValueSpecs]
  | cons s ss ih => simp [inspectValueSpecs, ih]

theorem collectImportSpecs_foldl (decls : List Node) (acc : List ImportSpec) :
    decls.foldl (fun importSpecs decl =>
      match decl with
      | .GenDeclImport _ specs => importSpecs ++ specs
      | _ => importSpecs) acc = acc ++ decls.flatMap importSpecsOf := by
  induction decls generalizing acc with
  | nil => simp
  | cons d ds ih =>
    simp only [List.foldl_cons, List.flatMap_cons]
    rw [ih]
    cases d <;> simp [importSpecsOf]

theorem collectImportSpecs_eq (decls : List Node) :
    collectImportSpecs decls = decls.flatMap importSpecsOf := by
  simp [collectImportSpecs, collectImportSpecs_foldl]

theorem inspectImportSpec_two : inspectImportSpec 2 = id := by
  funext s
  simp [inspectImportSpec, visitIdent_two]

theorem importSpecsOf_inspect_two (d : Node) :
    importSpecsOf (inspectNode 2 d) = importSpecsOf d := by
  cases d <;>
    simp [inspectNode_Ident, inspectNode_CommentGroup, inspectNode_GenDeclImport,
      inspectNode_GenDeclValue, inspectNode_GenDeclType, inspectNode_Other, importSpecsOf,
      inspectImportSpec_two]

theorem minifyTree_one (file : File) : minifyTree 1 file = mergeImports file := by
  simp [minifyTree, removeComments_eq]

theorem minifyTree_of_gt (level : Int) (h : level > 1) (file : File) :
    minifyTree level file = mergeImports (inspectFile level file) := by
  simp [minifyTree, removeComments_eq, h]


theorem Names_inspectValueSpec (level : Int) (s : ValueSpec) :
    (inspectValueSpec level s).Names = s.Names.map (visitIdent level) := by
  cases s; simp [inspectValueSpec, ValueSpec.Names]

theorem Values_inspectValueSpec (level : Int) (s : ValueSpec) :
    (inspectValueSpec level s).Values = inspectNodes level s.Values := by
  cases s; simp [inspectValueSpec, ValueSpec.Values]

theorem visitGenDecl_cons_cons (s0 s1 : ValueSpec) (rest : List ValueSpec) :
    visitGenDecl .VAR (s0 :: s1 :: rest)
      = [.mk s0.Doc ((s0 :: s1 :: rest).flatMap ValueSpec.Names) s0.Type_
          ((s0 :: s1 :: rest).flatMap ValueSpec.Values) s0.Comment] := by
  cases s0
  simp [visitGenDecl, foldl_appendSpec, appendSpec, ValueSpec.Doc, ValueSpec.Names,
    ValueSpec.Type_, ValueSpec.Values, ValueSpec.Comment, List.flatMap_cons]

theorem visitGenDecl_short (tok : ValueTok) (specs : List ValueSpec) (h : specs.length ≤ 1) :
    visitGenDecl tok specs = specs := by
  unfold visitGenDecl
  rw [if_neg]
  omega

theorem visitGenDecl_CONST (specs : List ValueSpec) : visitGenDecl .CONST specs = specs := by
  simp [visitGenDecl]

theorem Names_visitGenDecl (tok : ValueTok) (specs : List ValueSpec) :
    (visitGenDecl tok specs).flatMap ValueSpec.Names = specs.flatMap ValueSpec.Names := by
  cases tok
  · rw [visitGenDecl_CONST]
  · match specs with
    | [] => simp [visitGenDecl]
    | [s0] => rw [visitGenDecl_short _ _ (by simp)]
    | s0 :: s1 :: rest => rw [visitGenDecl_cons_cons]; simp [ValueSpec.Names]

theorem Values_visitGenDecl (tok : ValueTok) (specs : List ValueSpec) :
    (visitGenDecl tok specs).flatMap ValueSpec.Values = specs.flatMap ValueSpec.Values := by
  cases tok
  · rw [visitGenDecl_CONST]
  · match specs with
    | [] => simp [visitGenDecl]
    | [s0] => rw [visitGenDecl_short _ _ (by simp)]
    | s0 :: s1 :: rest => rw [visitGenDecl_cons_cons]; simp [ValueSpec.Values]

theorem length_visitGenDecl_VAR (specs : List ValueSpec) :
    (visitGenDecl .VAR specs).length = min specs.length 1 := by
  match specs with
  | [] => simp [visitGenDecl]
  | [s0] => rw [visitGenDecl_short _ _ (by simp)]; simp
  | s0 :: s1 :: rest => rw [visitGenDecl_cons_cons]; simp

theorem varGroups_inspectNodes (level : Int) (ds : List Node) :
    varGroups (inspectNodes level ds)
      = (varGroups ds).map fun specs => inspectValueSpecs level (visitGenDecl .VAR specs) := by
  induction ds with
  | nil => simp [inspectNodes, varGroups]
  | cons d ds ih =>
    rw [inspectNodes]
    cases d with
    | GenDeclValue doc tok specs =>
      cases tok <;> simp [inspectNode_GenDeclValue, varGroups, ih]
    | Ident name => simp [inspectNode_Ident, varGroups, ih]
    | CommentGroup g => simp [inspectNode_CommentGroup, varGroups, ih]
    | GenDeclImport doc specs => simp [inspectNode_GenDeclImport, varGroups, ih]
    | GenDeclType doc specs => simp [inspectNode_GenDeclType, varGroups, ih]
    | Other kind cs => simp [inspectNode_Other, varGroups, ih]

theorem varGroups_mergeImports (file : File) :
    varGroups (mergeImports file).Decls = varGroups file.Decls := by
  unfold mergeImports
  simp only []
  split <;> simp [varGroups]

theorem Decls_minifyTree_two (f : File) :
    (minifyTree 2 f).Decls
      = (if (f.Decls.flatMap importSpecsOf).length > 0
          then [Node.GenDeclImport none (f.Decls.flatMap importSpecsOf)] else [])
        ++ inspectNodes 2 f.Decls := by
  rw [minifyTree_of_gt 2 (by decide)]
  have h : collectImportSpecs (inspectFile 2 f).Decls = f.Decls.flatMap importSpecsOf := by
    rw [collectImportSpecs_eq]
    simp only [inspectFile, inspectNodes_eq_map, List.flatMap_map]
    simp [importSpecsOf_inspect_two]
  unfold mergeImports
  simp only [h]
  split <;> simp [inspectFile]

theorem collectImportSpecs_mapIdents (g : GoString → GoString) (ds : List Node) :
    collectImportSpecs (mapIdentsNodes g ds)
      = (collectImportSpecs ds).map fun s => { s with Name := s.Name.map g } := by
  rw [collectImportSpecs_eq, collectImportSpecs_eq]
  induction ds with
  | nil => simp [mapIdentsNodes]
  | cons d ds ih =>
    simp only [mapIdentsNodes, List.flatMap_cons, ih, List.map_append]
    cases d <;> simp [mapIdentsNode, importSpecsOf]

theorem mergeImports_mapIdents (g : GoString → GoString) (file : File) :
    mergeImports (mapIdentsFile g file) = mapIdentsFile g (mergeImports file) := by
  unfold mergeImports
  simp only [mapIdentsFile, collectImportSpecs_mapIdents, List.length_map]
  split <;> simp [mapIdentsNodes, mapIdentsNode]

theorem inspectFile_three (file : File) :
    inspectFile 3 file = mapIdentsFile firstThree (inspectFile 2 file) := by
  simp [inspectFile, mapIdentsFile, inspect_three_nodes, firstThree_eq, visitIdent_two]

theorem minifyTree_three (file : File) :
    minifyTree 3 file = mapIdentsFile firstThree (minifyTree 2 file) := by
  rw [minifyTree_of_gt 3 (by decide), minifyTree_of_gt 2 (by decide), inspectFile_three,
    mergeImports_mapIdents]

mutual
theorem identsNode_mapIdents (g : GoString → GoString) : (n : Node) →
    identsNode (mapIdentsNode g n) = (identsNode n).map g
  | .Ident _ => by simp [mapIdentsNode, identsNode]
  | .CommentGroup _ => by simp [mapIdentsNode, identsNode]
  | .GenDeclImport _ specs => by
    simp only [mapIdentsNode, identsNode]
    induction specs with
    | nil => simp
    | cons s ss ih => simp only [List.map_cons, List.flatMap_cons, ih, List.map_append]; cases s.Name <;> simp
  | .GenDeclValue _ _ specs => by
    simp only [mapIdentsNode, identsNode]; rw [identsValueSpecs_mapIdents g specs]
  | .GenDeclType _ specs => by
    simp only [mapIdentsNode, identsNode]; rw [identsTypeSpecs_mapIdents g specs]
  | .Other _ cs => by
    simp only [mapIdentsNode, identsNode]; rw [identsNodes_mapIdents g cs]
theorem identsNodes_mapIdents (g : GoString → GoString) : (ns : List Node) →
    identsNodes (mapIdentsNodes g ns) = (identsNodes ns).map g
  | [] => by simp [mapIdentsNodes, identsNodes]
  | n :: ns => by
    simp only [mapIdentsNodes, identsNodes]
    rw [identsNode_mapIdents g n, identsNodes_mapIdents g ns, List.map_append]
theorem identsOpt_mapIdents (g : GoString → GoString) : (o : Option Node) →
    identsOpt (mapIdentsOpt g o) = (identsOpt o).map g
  | none => by simp [mapIdentsOpt, identsOpt]
  | some n => by simp only [mapIdentsOpt, identsOpt]; rw [identsNode_mapIdents g n]
theorem identsValueSpec_mapIdents (g : GoString → GoString) : (s : ValueSpec) →
    identsValueSpec (mapIdentsValueSpec g s) = (identsValueSpec s).map g
  | .mk _ names t values _ => by
    simp only [mapIdentsValueSpec, identsValueSpec]
    rw [identsOpt_mapIdents g t, identsNodes_mapIdents g values]
    simp
theorem identsValueSpecs_mapIdents (g : GoString → GoString) : (ss : List ValueSpec) →
    identsValueSpecs (mapIdentsValueSpecs g ss) = (identsValueSpecs ss).map g
  | [] => by simp [mapIdentsValueSpecs, identsValueSpecs]
  | s :: ss => by
    simp only [mapIdentsValueSpecs, identsValueSpecs]
    rw [identsValueSpec_mapIdents g s, identsValueSpecs_mapIdents g ss, List.map_append]
theorem identsTypeSpec_mapIdents (g : GoString → GoString) : (s : TypeSpec) →
    identsTypeSpec (mapIdentsTypeSpec g s) = (identsTypeSpec s).map g
  | .mk _ name tp t _ => by
    simp only [mapIdentsTypeSpec, identsTypeSpec]
    rw [identsOpt_mapIdents g tp, identsNode_mapIdents g t]
    simp
theorem identsTypeSpecs_mapIdents (g : GoString → GoString) : (ss : List TypeSpec) →
    identsTypeSpecs (mapIdentsTypeSpecs g ss) = (identsTypeSpecs ss).map g
  | [] => by simp [mapIdentsTypeSpecs, identsTypeSpecs]
  | s :: ss => by
    simp only [mapIdentsTypeSpecs, identsTypeSpecs]
    rw [identsTypeSpec_mapIdents g s, identsTypeSpecs_mapIdents g ss, List.map_append]
end

theorem identsFile_mapIdents (g : GoString → GoString) (file : File) :
    identsFile (mapIdentsFile g file) = (identsFile file).map g := by
  simp [identsFile, mapIdentsFile, identsNodes_mapIdents]

theorem length_firstThree (name : GoString) : (firstThree name).length ≤ 3 := by
  unfold firstThree
  split
  · simp
  · omega

/-! ## Lemmas on the whitespace pass -/

theorem spaceRun_cons (c : UInt8) (cs : GoString) :
    spaceRun (c :: cs) = if isSpace c then spaceRun cs + 1 else 0 := by
  unfold spaceRun
  rw [List.takeWhile_cons]
  split <;> simp

theorem drop_spaceRun (s : GoString) : s.drop (spaceRun s) = s.dropWhile isSpace := by
  induction s with
  | nil => simp [spaceRun]
  | cons c cs ih =>
    rw [spaceRun_cons, List.dropWhile_cons]
    split <;> simp [ih]

theorem replaceAll_nil (m : GoString → Option Nat) (repl : GoString) :
    replaceAll m repl [] = [] := by
  rw [replaceAll]

theorem replaceSpaces_cons (c : UInt8) (cs : GoString) :
    replaceAll matchSpaces [0x20] (c :: cs)
      = if isSpace c then 0x20 :: replaceAll matchSpaces [0x20] (cs.dropWhile isSpace)
        else c :: replaceAll matchSpaces [0x20] cs := by
  rw [replaceAll]
  by_cases h : isSpace c
  · simp [matchSpaces, spaceRun_cons, h, drop_spaceRun]
  · simp [matchSpaces, spaceRun_cons, h]

theorem replaceBraceSpaces_cons (c : UInt8) (cs : GoString) :
    replaceAll matchBraceSpaces [0x7B] (c :: cs)
      = if c = 0x7B then 0x7B :: replaceAll matchBraceSpaces [0x7B] (cs.dropWhile isSpace)
        else c :: replaceAll matchBraceSpaces [0x7B] cs := by
  rw [replaceAll]
  by_cases h : c = 0x7B
  · by_cases h0 : spaceRun cs > 0
    · simp [matchBraceSpaces, h, h0, drop_spaceRun]
    · have h1 : spaceRun cs = 0 := by omega
      have h2 := drop_spaceRun cs
      rw [h1] at h2
      simp only [List.drop_zero] at h2
      simp [matchBraceSpaces, h, h1, ← h2]
  · simp [matchBraceSpaces, h]

theorem replaceSemiSpaces_cons (c : UInt8) (cs : GoString) :
    replaceAll matchSemiSpaces [0x3B] (c :: cs)
      = if c = 0x3B then 0x3B :: replaceAll matchSemiSpaces [0x3B] (cs.dropWhile isSpace)
        else c :: replaceAll matchSemiSpaces [0x3B] cs := by
  rw [replaceAll]
  by_cases h : c = 0x3B
  · simp [matchSemiSpaces, h, drop_spaceRun]
  · simp [matchSemiSpaces, h]

theorem replaceSpacesBrace_cons (c : UInt8) (cs : GoString) :
    replaceAll matchSpacesBrace [0x7D] (c :: cs)
      = if isSpace c ∧ (cs.dropWhile isSpace).head? = some 0x7D
        then 0x7D :: replaceAll matchSpacesBrace [0x7D] (cs.dropWhile isSpace).tail
        else c :: replaceAll matchSpacesBrace [0x7D] cs := by
  rw [replaceAll]
  by_cases h : isSpace c
  · by_cases h0 : (cs.dropWhile isSpace).head? = some 0x7D
    · have h1 : List.drop (spaceRun cs + 1) cs = (cs.dropWhile isSpace).tail := by
        rw [← drop_spaceRun, List.tail_drop]
      simp [matchSpacesBrace, spaceRun_cons, h, h0, drop_spaceRun, h1]
    · simp [matchSpacesBrace, spaceRun_cons, h, h0, drop_spaceRun]
  · simp [matchSpacesBrace, spaceRun_cons, h]


theorem Del.refl (s : GoString) : Del s s := by
  induction s with
  | nil => exact Del.nil
  | cons c cs ih => exact Del.keep c ih

theorem Del.trans {a b c : GoString} (h1 : Del a b) (h2 : Del b c) : Del a c := by
  induction h1 generalizing c with
  | nil => exact h2
  | keep x _ ih =>
    cases h2 with
    | keep _ h => exact Del.keep x (ih h)
    | drop _ hw h => exact Del.drop x hw (ih h)
  | drop w hw _ ih => exact Del.drop w hw (ih h2)

theorem Del.dropWhile (s : GoString) : Del s (s.dropWhile isSpace) := by
  induction s with
  | nil => exact Del.nil
  | cons c cs ih =>
    rw [List.dropWhile_cons]
    split
    · exact Del.drop c ‹_› ih
    · exact Del.refl _

theorem Del.mem {s t : GoString} (h : Del s t) : ∀ b ∈ t, b ∈ s := by
  induction h with
  | nil => simp
  | keep c _ ih =>
    intro b hb
    rcases List.mem_cons.1 hb with rfl | hb
    · simp
    · exact List.mem_cons_of_mem _ (ih b hb)
  | drop w _ _ ih =>
    intro b hb
    exact List.mem_cons_of_mem _ (ih b hb)

theorem Del.filter {s t : GoString} (h : Del s t) :
    t.filter (fun b => !isSpace b) = s.filter (fun b => !isSpace b) := by
  induction h with
  | nil => rfl
  | keep c _ ih => simp [List.filter_cons, ih]
  | drop w hw _ ih => simp [List.filter_cons, hw, ih]

theorem Del.head {s t : GoString} (h : Del s t) (hs : Apart s) :
    ∀ d ∈ t.head?, d ∈ s.head? ∨ (isSpace d = false ∧ ∃ w ∈ s.head?, isSpace w = true) := by
  cases h with
  | nil => simp
  | keep c _ => intro d hd; left; simpa using hd
  | drop w hw h' =>
    intro d hd
    right
    refine ⟨?_, w, by simp, hw⟩
    cases h' with
    | nil => simp at hd
    | keep c _ =>
      simp only [List.head?_cons, Option.mem_def, Option.some.injEq] at hd
      subst hd
      have := (List.chain'_cons.1 hs).1
      by_contra hc
      exact this ⟨hw, by simpa using hc⟩
    | drop w2 hw2 _ =>
      exact absurd ⟨hw, hw2⟩ (List.chain'_cons.1 hs).1

theorem Del.chain {R : UInt8 → UInt8 → Prop}
    (hR : ∀ a b, isSpace a = false → isSpace b = false → R a b)
    {s t : GoString} (h : Del s t) (hs : Apart s) (hc : s.Chain' R) : t.Chain' R := by
  induction h with
  | nil => exact List.chain'_nil
  | @keep c s' t' h' ih =>
    have hs' : Apart s' := List.Chain'.tail hs
    have hc' : s'.Chain' R := List.Chain'.tail hc
    rw [List.chain'_cons']
    refine ⟨?_, ih hs' hc'⟩
    intro d hd
    rcases Del.head h' hs' d hd with h1 | ⟨h1, w, hw, hw'⟩
    · exact (List.chain'_cons'.1 hc).1 d h1
    · have hcw : ¬(isSpace c = true ∧ isSpace w = true) := (List.chain'_cons'.1 hs).1 w hw
      have : isSpace c = false := by
        by_contra hx
        exact hcw ⟨by simpa using hx, hw'⟩
      exact hR c d this h1
  | drop w _ _ ih => exact ih (List.Chain'.tail hs) (List.Chain'.tail hc)


theorem length_induction {P : GoString → Prop}
    (step : ∀ s, (∀ t, t.length < s.length → P t) → P s) (s : GoString) : P s := by
  have h : ∀ n, ∀ t : GoString, t.length = n → P t := by
    intro n
    induction n using Nat.strong_induction_on with
    | _ n ih =>
      intro t ht
      exact step t fun u hu => ih u.length (ht ▸ hu) u rfl
  exact h s.length s rfl

theorem length_dropWhile_lt (c : UInt8) (cs : GoString) :
    (cs.dropWhile isSpace).length < (c :: cs).length := by
  have := (List.dropWhile_sublist isSpace (l := cs)).length_le
  simp only [List.length_cons]
  omega

theorem length_tail_dropWhile_lt (c : UInt8) (cs : GoString) :
    (cs.dropWhile isSpace).tail.length < (c :: cs).length := by
  have := (List.dropWhile_sublist isSpace (l := cs)).length_le
  simp only [List.length_cons, List.length_tail]
  omega

theorem head?_dropWhile_not_space (cs : GoString) :
    ∀ d ∈ (cs.dropWhile isSpace).head?, isSpace d = false := by
  induction cs with
  | nil => simp
  | cons c cs ih =>
    rw [List.dropWhile_cons]
    split
    · exact ih
    · intro d hd
      simp only [List.head?_cons, Option.mem_def, Option.some.injEq] at hd
      subst hd
      simpa using ‹¬isSpace c = true›

/-! ### The first replacement -/

theorem head?_replaceSpaces (s : GoString) :
    (replaceAll matchSpaces [0x20] s).head?
      = s.head?.map fun c => if isSpace c then 0x20 else c := by
  cases s with
  | nil => simp [replaceAll_nil]
  | cons c cs =>
    rw [replaceSpaces_cons]
    split <;> simp [*]

theorem mem_replaceSpaces (s : GoString) :
    ∀ b ∈ replaceAll matchSpaces [0x20] s, isSpace b = true → b = 0x20 := by
  induction s using length_induction with
  | _ s ih =>
    cases s with
    | nil => simp [replaceAll_nil]
    | cons c cs =>
      rw [replaceSpaces_cons]
      intro b hb hw
      split at hb
      · rcases List.mem_cons.1 hb with rfl | hb
        · rfl
        · exact ih _ (length_dropWhile_lt c cs) b hb hw
      · rcases List.mem_cons.1 hb with rfl | hb
        · exact absurd hw ‹_›
        · exact ih _ (by simp) b hb hw

theorem apart_replaceSpaces (s : GoString) : Apart (replaceAll matchSpaces [0x20] s) := by
  induction s using length_induction with
  | _ s ih =>
    cases s with
    | nil => simp [replaceAll_nil, Apart]
    | cons c cs =>
      rw [replaceSpaces_cons]
      unfold Apart
      split
      · rw [List.chain'_cons']
        refine ⟨?_, ih _ (length_dropWhile_lt c cs)⟩
        intro d hd
        rw [head?_replaceSpaces] at hd
        simp only [Option.mem_def, Option.map_eq_some'] at hd
        obtain ⟨e, he, rfl⟩ := hd
        have := head?_dropWhile_not_space cs e he
        simp [this]
      · rw [List.chain'_cons']
        refine ⟨?_, ih _ (by simp)⟩
        intro d _ hcd
        exact absurd hcd.1 ‹_›

theorem filter_replaceSpaces (s : GoString) :
    (replaceAll matchSpaces [0x20] s).filter (fun b => !isSpace b)
      = s.filter (fun b => !isSpace b) := by
  induction s using length_induction with
  | _ s ih =>
    cases s with
    | nil => simp [replaceAll_nil]
    | cons c cs =>
      rw [replaceSpaces_cons]
      split
      · rename_i hc
        have h32 : isSpace 0x20 = true := by decide
        rw [List.filter_cons, List.filter_cons, ih _ (length_dropWhile_lt c cs)]
        simp only [h32, hc, Bool.not_true, Bool.false_eq_true, if_false]
        exact Del.filter (Del.dropWhile cs)
      · rw [List.filter_cons, List.filter_cons, ih _ (by simp)]

/-! ### The second and the fourth replacement -/

theorem del_replaceBraceSpaces (s : GoString) : Del s (replaceAll matchBraceSpaces [0x7B] s) := by
  induction s using length_induction with
  | _ s ih =>
    cases s with
    | nil => rw [replaceAll_nil]; exact Del.nil
    | cons c cs =>
      rw [replaceBraceSpaces_cons]
      split
      · rename_i hc
        subst hc
        exact Del.keep _ (Del.trans (Del.dropWhile cs) (ih _ (length_dropWhile_lt _ cs)))
      · exact Del.keep _ (ih _ (by simp))

theorem del_replaceSemiSpaces (s : GoString) : Del s (replaceAll matchSemiSpaces [0x3B] s) := by
  induction s using length_induction with
  | _ s ih =>
    cases s with
    | nil => rw [replaceAll_nil]; exact Del.nil
    | cons c cs =>
      rw [replaceSemiSpaces_cons]
      split
      · rename_i hc
        subst hc
        exact Del.keep _ (Del.trans (Del.dropWhile cs) (ih _ (length_dropWhile_lt _ cs)))
      · exact Del.keep _ (ih _ (by simp))

theorem head?_replaceBraceSpaces (s : GoString) :
    (replaceAll matchBraceSpaces [0x7B] s).head? = s.head? := by
  cases s with
  | nil => simp [replaceAll_nil]
  | cons c cs =>
    rw [replaceBraceSpaces_cons]
    split <;> simp [*]

theorem head?_replaceSemiSpaces (s : GoString) :
    (replaceAll matchSemiSpaces [0x3B] s).head? = s.head? := by
  cases s with
  | nil => simp [replaceAll_nil]
  | cons c cs =>
    rw [replaceSemiSpaces_cons]
    split <;> simp [*]

theorem chain_replaceBraceSpaces (s : GoString) :
    (replaceAll matchBraceSpaces [0x7B] s).Chain' fun a b => a = 0x7B → isSpace b = false := by
  induction s using length_induction with
  | _ s ih =>
    cases s with
    | nil => simp [replaceAll_nil]
    | cons c cs =>
      rw [replaceBraceSpaces_cons]
      split
      · rw [List.chain'_cons']
        refine ⟨?_, ih _ (length_dropWhile_lt c cs)⟩
        intro d hd _
        rw [head?_replaceBraceSpaces] at hd
        exact head?_dropWhile_not_space cs d hd
      · rw [List.chain'_cons']
        refine ⟨?_, ih _ (by simp)⟩
        intro d _ hc
        exact absurd hc ‹_›

theorem chain_replaceSemiSpaces (s : GoString) :
    (replaceAll matchSemiSpaces [0x3B] s).Chain' fun a b => a = 0x3B → isSpace b = false := by
  induction s using length_induction with
  | _ s ih =>
    cases s with
    | nil => simp [replaceAll_nil]
    | cons c cs =>
      rw [replaceSemiSpaces_cons]
      split
      · rw [List.chain'_cons']
        refine ⟨?_, ih _ (length_dropWhile_lt c cs)⟩
        intro d hd _
        rw [head?_replaceSemiSpaces] at hd
        exact head?_dropWhile_not_space cs d hd
      · rw [List.chain'_cons']
        refine ⟨?_, ih _ (by simp)⟩
        intro d _ hc
        exact absurd hc ‹_›


/-! ### The third replacement -/

theorem del_replaceSpacesBrace (s : GoString) : Del s (replaceAll matchSpacesBrace [0x7D] s) := by
  induction s using length_induction with
  | _ s ih =>
    cases s with
    | nil => rw [replaceAll_nil]; exact Del.nil
    | cons c cs =>
      rw [replaceSpacesBrace_cons]
      split
      · rename_i hc
        refine Del.drop c hc.1 (Del.trans (Del.dropWhile cs) ?_)
        have hr : cs.dropWhile isSpace = 0x7D :: (cs.dropWhile isSpace).tail := by
          cases hd : cs.dropWhile isSpace with
          | nil => rw [hd] at hc; simp at hc
          | cons x xs => rw [hd] at hc; simp at hc; simp [hc.2]
        rw [hr]
        exact Del.keep _ (ih _ (length_tail_dropWhile_lt c cs))
      · exact Del.keep _ (ih _ (by simp))

theorem head?_replaceSpacesBrace (s : GoString)
    (h : (replaceAll matchSpacesBrace [0x7D] s).head? = some 0x7D) :
    (s.dropWhile isSpace).head? = some 0x7D := by
  cases s with
  | nil => simp [replaceAll_nil] at h
  | cons c cs =>
    rw [replaceSpacesBrace_cons] at h
    split at h
    · rename_i hc
      rw [List.dropWhile_cons, if_pos hc.1]
      exact hc.2
    · simp only [List.head?_cons, Option.some.injEq] at h
      subst h
      rw [List.dropWhile_cons, if_neg (by decide)]
      rfl

theorem chain_replaceSpacesBrace (s : GoString) :
    (replaceAll matchSpacesBrace [0x7D] s).Chain' fun a b => b = 0x7D → isSpace a = false := by
  induction s using length_induction with
  | _ s ih =>
    cases s with
    | nil => simp [replaceAll_nil]
    | cons c cs =>
      rw [replaceSpacesBrace_cons]
      split
      · rw [List.chain'_cons']
        refine ⟨?_, ih _ (length_tail_dropWhile_lt c cs)⟩
        intro d _ _
        decide
      · rename_i hc
        rw [List.chain'_cons']
        refine ⟨?_, ih _ (by simp)⟩
        intro d hd hd'
        subst hd'
        have := head?_replaceSpacesBrace cs hd
        by_contra hx
        exact hc ⟨by simpa using hx, this⟩

/-! ### The four replacements together -/

theorem chain'_and {R S : UInt8 → UInt8 → Prop} (l : GoString) (hR : l.Chain' R)
    (hS : l.Chain' S) : l.Chain' fun a b => R a b ∧ S a b := by
  induction l with
  | nil => exact List.chain'_nil
  | cons x xs ih =>
    rw [List.chain'_cons'] at hR hS ⊢
    exact ⟨fun y hy => ⟨hR.1 y hy, hS.1 y hy⟩, ih hR.2 hS.2⟩

theorem removeWhitespace_facts (s : GoString) :
    (∀ b ∈ removeWhitespace s, isSpace b = true → b = 0x20) ∧
    Apart (removeWhitespace s) ∧
    ((removeWhitespace s).Chain' fun a b => a = 0x7B → isSpace b = false) ∧
    ((removeWhitespace s).Chain' fun a b => b = 0x7D → isSpace a = false) ∧
    ((removeWhitespace s).Chain' fun a b => a = 0x3B → isSpace b = false) ∧
    (removeWhitespace s).filter (fun b => !isSpace b) = s.filter (fun b => !isSpace b) := by
  have d2 := del_replaceBraceSpaces (replaceAll matchSpaces [0x20] s)
  have d3 := del_replaceSpacesBrace
    (replaceAll matchBraceSpaces [0x7B] (replaceAll matchSpaces [0x20] s))
  have d4 := del_replaceSemiSpaces (replaceAll matchSpacesBrace [0x7D]
    (replaceAll matchBraceSpaces [0x7B] (replaceAll matchSpaces [0x20] s)))
  have a1 := apart_replaceSpaces s
  have a2 : Apart _ := Del.chain (fun a b ha _ => by simp [ha]) d2 a1 a1
  have a3 : Apart _ := Del.chain (fun a b ha _ => by simp [ha]) d3 a2 a2
  have a4 : Apart _ := Del.chain (fun a b ha _ => by simp [ha]) d4 a3 a3
  have b2 := chain_replaceBraceSpaces (replaceAll matchSpaces [0x20] s)
  have b3 := Del.chain (R := fun a b => a = 0x7B → isSpace b = false)
    (fun a b _ hb _ => hb) d3 a2 b2
  have b4 := Del.chain (R := fun a b => a = 0x7B → isSpace b = false)
    (fun a b _ hb _ => hb) d4 a3 b3
  have c3 := chain_replaceSpacesBrace
    (replaceAll matchBraceSpaces [0x7B] (replaceAll matchSpaces [0x20] s))
  have c4 := Del.chain (R := fun a b => b = 0x7D → isSpace a = false)
    (fun a b ha _ _ => ha) d4 a3 c3
  have e4 := chain_replaceSemiSpaces (replaceAll matchSpacesBrace [0x7D]
    (replaceAll matchBraceSpaces [0x7B] (replaceAll matchSpaces [0x20] s)))
  refine ⟨?_, a4, b4, c4, e4, ?_⟩
  · intro b hb
    exact mem_replaceSpaces s b (d2.mem b (d3.mem b (d4.mem b hb)))
  · unfold removeWhitespace
    rw [d4.filter, d3.filter, d2.filter, filter_replaceSpaces]

/-! ## Lemmas on `collectFiles` -/

theorem GoMap.get_set_self {V : Type} (m : GoMap V) (k : GoString) (v : V) :
    (GoMap.set m k v).get k = some v := by
  induction m with
  | nil => simp [GoMap.set, GoMap.get]
  | cons e m ih =>
    obtain ⟨k', v'⟩ := e
    by_cases h : k' = k
    · simp [GoMap.set, GoMap.get, h]
    · simp [GoMap.set, GoMap.get, h, ih]

theorem GoMap.get_set_ne {V : Type} (m : GoMap V) (k k' : GoString) (v : V) (h : k ≠ k') :
    (GoMap.set m k v).get k' = GoMap.get m k' := by
  induction m with
  | nil => simp [GoMap.set, GoMap.get, h]
  | cons e m ih =>
    obtain ⟨k0, v0⟩ := e
    by_cases h0 : k0 = k
    · subst h0
      simp [GoMap.set, GoMap.get, h]
    · by_cases h1 : k0 = k'
      · subst h1
        simp [GoMap.set, GoMap.get, h0]
      · simp [GoMap.set, GoMap.get, h0, h1, ih]

theorem contains_iff (slice : List GoString) (item : GoString) :
    contains slice item = true ↔ item ∈ slice := by
  induction slice with
  | nil => simp [contains]
  | cons a rest ih =>
    by_cases h : a = item
    · simp [contains, h]
    · have h' : ¬item = a := fun e => h e.symm
      simp [contains, h, h', ih]

/-- The loop of lines 142-147 on the trimmed paths. -/
theorem addImports_eq (allImports : List GoString) (imports : List ImportSpec) :
    addImports allImports imports
      = (imports.map fun imp => trimQuotes imp.Path).foldl
          (fun all p => if p ∈ all then all else all ++ [p]) allImports := by
  unfold addImports
  rw [List.foldl_map]
  congr 1
  funext all imp
  by_cases h : trimQuotes imp.Path ∈ all
  · simp [h, (contains_iff _ _).2 h]
  · have : contains all (trimQuotes imp.Path) = false := by
      rw [← Bool.not_eq_true, contains_iff]; exact h
    simp [h, this]

theorem foldl_add_eq (paths acc : List GoString) :
    paths.foldl (fun all p => if p ∈ all then all else all ++ [p]) acc
      = acc ++ (firstOccurrences paths).filter (fun y => decide (y ∉ acc)) := by
  induction paths generalizing acc with
  | nil => simp [firstOccurrences]
  | cons x xs ih =>
    simp only [List.foldl_cons, firstOccurrences]
    by_cases h : x ∈ acc
    · rw [if_pos h, ih, List.filter_cons, List.filter_filter]
      simp only [h, not_true_eq_false, decide_False, Bool.false_eq_true, if_false]
      congr 1
      apply List.filter_congr
      intro y _
      by_cases hy : y ∈ acc
      · simp [hy]
      · have : y ≠ x := fun e => hy (e ▸ h)
        simp [hy, this]
    · rw [if_neg h, ih, List.filter_cons, List.filter_filter]
      simp only [h, not_false_eq_true, decide_True, if_true, List.append_assoc,
        List.singleton_append]
      congr 2
      apply List.filter_congr
      intro y _
      by_cases hy : y ∈ acc
      · simp [hy]
      · by_cases hx : y = x
        · simp [hx]
        · simp [hy, hx]

theorem mem_firstOccurrences (l : List GoString) (x : GoString) :
    x ∈ firstOccurrences l ↔ x ∈ l := by
  induction l with
  | nil => simp [firstOccurrences]
  | cons a l ih =>
    simp only [firstOccurrences, List.mem_cons, List.mem_filter, ih, decide_eq_true_eq]
    by_cases h : x = a
    · simp [h]
    · simp [h]

theorem nodup_firstOccurrences (l : List GoString) : (firstOccurrences l).Nodup := by
  induction l with
  | nil => simp [firstOccurrences]
  | cons a l ih =>
    simp only [firstOccurrences, List.nodup_cons, List.mem_filter, decide_eq_true_eq]
    exact ⟨fun h => h.2 rfl, ih.filter _⟩

theorem walkFiles_eq {ε : Type} (parse : GoString → Except ε File)
    (print : File → Except ε GoString) (parseImports : GoString → Except ε Header)
    (level : Int) (entries : List (GoString × GoString)) (st : Collected) :
    (walkFiles parse print parseImports level st entries).1
      = (processed parse print level entries).foldl
          (fun st e => recordFile parseImports st e.1 e.2) st := by
  induction entries generalizing st with
  | nil => simp [walkFiles, processed]
  | cons e rest ih =>
    obtain ⟨relPath, content⟩ := e
    unfold walkFiles processed
    cases h : minifyGoCode parse print content level with
    | error err => simp
    | ok minified => simp [ih]

theorem allImports_foldl {ε : Type} (parseImports : GoString → Except ε Header)
    (files : List (GoString × GoString)) (st : Collected) :
    (files.foldl (fun st e => recordFile parseImports st e.1 e.2) st).allImports
      = (importPaths (reparsed parseImports files)).foldl
          (fun all p => if p ∈ all then all else all ++ [p]) st.allImports := by
  induction files generalizing st with
  | nil => simp [reparsed, importPaths]
  | cons e rest ih =>
    rw [List.foldl_cons, ih]
    unfold recordFile reparsed
    cases h : parseImports e.2 with
    | error err => simp [List.filterMap_cons, h]
    | ok f =>
      simp only [List.filterMap_cons, h, importPaths, List.flatMap_cons, List.foldl_append,
        addImports_eq]

theorem S_foldl {ε : Type} (parseImports : GoString → Except ε Header)
    (files : List (GoString × GoString)) (st : Collected) (p : GoString) :
    (GoMap.get (files.foldl (fun st e => recordFile parseImports st e.1 e.2) st).S p).getD []
      = (GoMap.get st.S p).getD []
        ++ ((reparsed parseImports files).filter fun h => decide (h.2.Name = p)).map (·.1) := by
  induction files generalizing st with
  | nil => simp [reparsed]
  | cons e rest ih =>
    rw [List.foldl_cons, ih]
    unfold recordFile reparsed
    cases h : parseImports e.2 with
    | error err => simp [List.filterMap_cons, h]
    | ok f =>
      simp only [List.filterMap_cons, h]
      by_cases hp : f.Name = p
      · subst hp
        simp [GoMap.get_set_self, List.filter_cons]
      · simp [GoMap.get_set_ne _ _ _ _ hp, List.filter_cons, hp]

theorem identsNodes_append (xs ys : List Node) :
    identsNodes (xs ++ ys) = identsNodes xs ++ identsNodes ys := by
  induction xs with
  | nil => simp [identsNodes]
  | cons x xs ih => simp [identsNodes, ih]

theorem names_subset_idents (ss : List ValueSpec) :
    ∀ x ∈ ss.flatMap ValueSpec.Names, x ∈ identsValueSpecs ss := by
  induction ss with
  | nil => simp
  | cons s ss ih =>
    intro x hx
    cases s with
    | mk doc names t values comment =>
      simp only [List.flatMap_cons, ValueSpec.Names, List.mem_append] at hx
      simp only [identsValueSpecs, identsValueSpec, List.mem_append]
      rcases hx with hx | hx
      · exact Or.inl (Or.inl (Or.inl hx))
      · exact Or.inr (ih x hx)

mutual
theorem idents_two_node : (n : Node) → ∀ x ∈ identsNode (inspectNode 2 n), x ∈ identsNode n
  | .Ident name => by simp [inspectNode_Ident, visitIdent_two]
  | .CommentGroup g => by simp [inspectNode_CommentGroup]
  | .GenDeclImport doc specs => by simp [inspectNode_GenDeclImport, inspectImportSpec_two]
  | .GenDeclValue doc tok specs => by
    simp only [inspectNode_GenDeclValue, identsNode]
    exact idents_two_visited tok specs
  | .GenDeclType doc specs => by
    simp only [inspectNode_GenDeclType, identsNode]
    exact idents_two_typeSpecs specs
  | .Other kind cs => by
    simp only [inspectNode_Other, identsNode]
    exact idents_two_nodes cs
theorem idents_two_nodes : (ns : List Node) →
    ∀ x ∈ identsNodes (inspectNodes 2 ns), x ∈ identsNodes ns
  | [] => by simp [inspectNodes]
  | n :: ns => by
    intro x hx
    simp only [inspectNodes, identsNodes, List.mem_append] at hx ⊢
    rcases hx with hx | hx
    · exact Or.inl (idents_two_node n x hx)
    · exact Or.inr (idents_two_nodes ns x hx)
theorem idents_two_opt : (o : Option Node) →
    ∀ x ∈ identsOpt (inspectOpt 2 o), x ∈ identsOpt o
  | none => by simp [inspectOpt]
  | some n => by
    simp only [inspectOpt, identsOpt]
    exact idents_two_node n
theorem idents_two_valueSpec : (s : ValueSpec) →
    ∀ x ∈ identsValueSpec (inspectValueSpec 2 s), x ∈ identsValueSpec s
  | .mk doc names t values comment => by
    intro x hx
    simp only [inspectValueSpec, identsValueSpec, visitIdent_two, List.map_id,
      List.mem_append] at hx ⊢
    rcases hx with (hx | hx) | hx
    · exact Or.inl (Or.inl hx)
    · exact Or.inl (Or.inr (idents_two_opt t x hx))
    · exact Or.inr (idents_two_nodes values x hx)
theorem idents_two_valueSpecs : (ss : List ValueSpec) →
    ∀ x ∈ identsValueSpecs (inspectValueSpecs 2 ss), x ∈ identsValueSpecs ss
  | [] => by simp [inspectValueSpecs]
  | s :: ss => by
    intro x hx
    simp only [inspectValueSpecs, identsValueSpecs, List.mem_append] at hx ⊢
    rcases hx with hx | hx
    · exact Or.inl (idents_two_valueSpec s x hx)
    · exact Or.inr (idents_two_valueSpecs ss x hx)
theorem idents_two_values : (ss : List ValueSpec) →
    ∀ x ∈ identsNodes (inspectNodes 2 (ss.flatMap ValueSpec.Values)), x ∈ identsValueSpecs ss
  | [] => by simp [inspectNodes, identsNodes]
  | .mk doc names t values comment :: ss => by
    intro x hx
    simp only [List.flatMap_cons, ValueSpec.Values, inspectNodes_append, identsNodes_append,
      List.mem_append] at hx
    simp only [identsValueSpecs, identsValueSpec, List.mem_append]
    rcases hx with hx | hx
    · exact Or.inl (Or.inr (idents_two_nodes values x hx))
    · exact Or.inr (idents_two_values ss x hx)
theorem idents_two_visited (tok : ValueTok) : (ss : List ValueSpec) →
    ∀ x ∈ identsValueSpecs (inspectValueSpecs 2 (visitGenDecl tok ss)), x ∈ identsValueSpecs ss
  | [] => by simp [visitGenDecl, inspectValueSpecs]
  | .mk doc names t values comment :: rest => by
    unfold visitGenDecl
    split
    · intro x hx
      simp only [foldl_appendSpec, inspectValueSpecs, inspectValueSpec, identsValueSpecs,
        identsValueSpec, visitIdent_two, List.map_id, inspectNodes_append, identsNodes_append,
        List.append_nil, List.mem_append] at hx
      simp only [identsValueSpecs, identsValueSpec, List.mem_append]
      rcases hx with ((hx | hx) | hx) | (hx | hx)
      · exact Or.inl (Or.inl (Or.inl hx))
      · exact Or.inr (names_subset_idents rest x hx)
      · exact Or.inl (Or.inl (Or.inr (idents_two_opt t x hx)))
      · exact Or.inl (Or.inr (idents_two_nodes values x hx))
      · exact Or.inr (idents_two_values rest x hx)
    · exact idents_two_valueSpecs _
theorem idents_two_typeSpec : (s : TypeSpec) →
    ∀ x ∈ identsTypeSpec (inspectTypeSpec 2 s), x ∈ identsTypeSpec s
  | .mk doc name tp t comment => by
    intro x hx
    simp only [inspectTypeSpec, identsTypeSpec, visitIdent_two, id, List.mem_cons,
      List.mem_append] at hx ⊢
    rcases hx with hx | hx | hx
    · exact Or.inl hx
    · exact Or.inr (Or.inl (idents_two_opt tp x hx))
    · exact Or.inr (Or.inr (idents_two_node t x hx))
theorem idents_two_typeSpecs : (ss : List TypeSpec) →
    ∀ x ∈ identsTypeSpecs (inspectTypeSpecs 2 ss), x ∈ identsTypeSpecs ss
  | [] => by simp [inspectTypeSpecs]
  | s :: ss => by
    intro x hx
    simp only [inspectTypeSpecs, identsTypeSpecs, List.mem_append] at hx ⊢
    rcases hx with hx | hx
    · exact Or.inl (idents_two_typeSpec s x hx)
    · exact Or.inr (idents_two_typeSpecs ss x hx)
end

theorem importNames_subset (ds : List Node) :
    ∀ x ∈ (ds.flatMap importSpecsOf).flatMap (fun s => s.Name.toList), x ∈ identsNodes ds := by
  induction ds with
  | nil => simp
  | cons d ds ih =>
    intro x hx
    simp only [List.flatMap_cons, List.flatMap_append, List.mem_append] at hx
    simp only [identsNodes, List.mem_append]
    rcases hx with hx | hx
    · left
      cases d <;> simp [importSpecsOf] at hx
      simpa [identsNode] using hx
    · exact Or.inr (ih x hx)

theorem idents_minifyTree_two (f : File) :
    ∀ x ∈ identsFile (minifyTree 2 f), x ∈ identsFile f := by
  intro x hx
  simp only [identsFile, List.mem_cons] at hx ⊢
  rcases hx with hx | hx
  · left
    rw [hx, minifyTree_of_gt 2 (by decide)]
    unfold mergeImports
    simp only []
    split <;> simp [inspectFile, visitIdent_two]
  · right
    rw [Decls_minifyTree_two, identsNodes_append, List.mem_append] at hx
    rcases hx with hx | hx
    · split at hx
      · simp only [identsNodes, identsNode, List.append_nil] at hx
        exact importNames_subset f.Decls x hx
      · simp [identsNodes] at hx
    · exact idents_two_nodes f.Decls x hx

theorem Comments_minifyTree (level : Int) (f : File) :
    (minifyTree level f).Comments = f.Comments ∧ (minifyTree level f).Doc = f.Doc := by
  unfold minifyTree mergeImports
  simp only [removeComments_eq]
  split <;> split <;> simp [inspectFile]

theorem isImportDecl_inspectNode (level : Int) (d : Node) :
    isImportDecl (inspectNode level d) = isImportDecl d := by
  cases d <;>
    simp [inspectNode_Ident, inspectNode_CommentGroup, inspectNode_GenDeclImport,
      inspectNode_GenDeclValue, inspectNode_GenDeclType, inspectNode_Other, isImportDecl]

theorem import_group_of_specs (ds : List Node) (h : (ds.flatMap importSpecsOf).length > 0) :
    (ds.filter isImportDecl).length > 0 := by
  induction ds with
  | nil => simp at h
  | cons d ds ih =>
    cases d with
    | GenDeclImport doc specs => simp [List.filter_cons, isImportDecl]
    | Ident name => simpa [List.filter_cons, isImportDecl, importSpecsOf] using ih (by simpa [importSpecsOf] using h)
    | CommentGroup g => simpa [List.filter_cons, isImportDecl, importSpecsOf] using ih (by simpa [importSpecsOf] using h)
    | GenDeclValue doc tok specs => simpa [List.filter_cons, isImportDecl, importSpecsOf] using ih (by simpa [importSpecsOf] using h)
    | GenDeclType doc specs => simpa [List.filter_cons, isImportDecl, importSpecsOf] using ih (by simpa [importSpecsOf] using h)
    | Other kind cs => simpa [List.filter_cons, isImportDecl, importSpecsOf] using ih (by simpa [importSpecsOf] using h)

/-- A file with an import specification comes out of level 2 with two import groups or
more: the group that lines 80-82 put first, and behind it the import groups of the parsed
file. -/
theorem two_import_groups (f : File) (h : (f.Decls.flatMap importSpecsOf).length > 0) :
    2 ≤ ((minifyTree 2 f).Decls.filter isImportDecl).length := by
  rw [Decls_minifyTree_two, if_pos h]
  have h1 := import_group_of_specs f.Decls h
  have h2 : (inspectNodes 2 f.Decls).filter isImportDecl
      = (f.Decls.filter isImportDecl).map (inspectNode 2) := by
    rw [inspectNodes_eq_map, List.filter_map]
    congr 1
    apply List.filter_congr
    intro d _
    simp [Function.comp, isImportDecl_inspectNode]
  simp only [List.singleton_append, List.filter_cons, isImportDecl, if_true, List.length_cons,
    h2, List.length_map]
  omega

/-! ## The claims on the tree -/

/-- C10: the `*ast.GenDecl` case of the visitor rewrites a `var` group of two or more
specifications to a group of one specification, which has the documentation, type and comment
of the first and, as names and values, the names and values of all of them in their order; a
`var` group of one or no specification, a `const` group, a `type` group and an import group
are left as they are. -/
theorem visit_genDecl (level : Int) (doc : Option CommentGroup) :
    (∀ s0 s1 rest, visit level (.GenDeclValue doc .VAR (s0 :: s1 :: rest))
      = .GenDeclValue doc .VAR [.mk s0.Doc ((s0 :: s1 :: rest).flatMap ValueSpec.Names) s0.Type_
          ((s0 :: s1 :: rest).flatMap ValueSpec.Values) s0.Comment]) ∧
    (∀ s0, visit level (.GenDeclValue doc .VAR [s0]) = .GenDeclValue doc .VAR [s0]) ∧
    visit level (.GenDeclValue doc .VAR []) = .GenDeclValue doc .VAR [] ∧
    (∀ specs, visit level (.GenDeclValue doc .CONST specs) = .GenDeclValue doc .CONST specs) ∧
    (∀ specs, visit level (.GenDeclType doc specs) = .GenDeclType doc specs) ∧
    (∀ specs, visit level (.GenDeclImport doc specs) = .GenDeclImport doc specs) := by
  refine ⟨?_, ?_, ?_, ?_, ?_, ?_⟩
  · intro s0 s1 rest
    simp only [visit, visitGenDecl_cons_cons]
  · intro s0
    simp only [visit, visitGenDecl_short _ [s0] (by simp)]
  · simp only [visit, visitGenDecl_short _ [] (by simp)]
  · intro specs
    simp only [visit, visitGenDecl_CONST]
  · intro specs; rfl
  · intro specs; rfl

/-- C3, as the code has it: at level 2 the `var` groups of the file stay apart. The tree
handed to the printer has the `var` groups of the parsed file, as many and in the same order;
each holds at most one specification, with the names of its own specifications in their order
and their values, traversed, in their order. The file `var ( x = 1; y = 2; z = 3 )` of one
group comes out with names `[x, y, z]` and values `[1, 2, 3]`. -/
theorem var_groups_level_two (f : File) :
    varGroupNames (minifyTree 2 f).Decls = varGroupNames f.Decls ∧
    varGroupValues (minifyTree 2 f).Decls = (varGroupValues f.Decls).map (inspectNodes 2) ∧
    (varGroups (minifyTree 2 f).Decls).map List.length
      = (varGroups f.Decls).map (fun specs => min specs.length 1) ∧
    varGroupNames (minifyTree 2 oneVarGroup).Decls
      = [[goString "x", goString "y", goString "z"]] ∧
    varGroupValues (minifyTree 2 oneVarGroup).Decls = [[intLit "1", intLit "2", intLit "3"]] := by
  have hg : ∀ g : File, varGroups (minifyTree 2 g).Decls
      = (varGroups g.Decls).map fun specs => inspectValueSpecs 2 (visitGenDecl .VAR specs) := by
    intro g
    rw [minifyTree_of_gt 2 (by decide), varGroups_mergeImports]
    simp only [inspectFile, varGroups_inspectNodes]
  have hn : ∀ g : File, varGroupNames (minifyTree 2 g).Decls = varGroupNames g.Decls := by
    intro g
    simp only [varGroupNames, hg, List.map_map]
    apply List.map_congr_left
    intro specs _
    simp only [Function.comp, inspectValueSpecs_eq_map, List.flatMap_map,
      Names_inspectValueSpec, visitIdent_two, List.map_id]
    exact Names_visitGenDecl _ _
  have hv : ∀ g : File, varGroupValues (minifyTree 2 g).Decls
      = (varGroupValues g.Decls).map (inspectNodes 2) := by
    intro g
    simp only [varGroupValues, hg, List.map_map]
    apply List.map_congr_left
    intro specs _
    simp only [Function.comp, inspectValueSpecs_eq_map, List.flatMap_map,
      Values_inspectValueSpec, inspectNodes_eq_map]
    rw [← Values_visitGenDecl .VAR specs, List.map_flatMap]
  refine ⟨hn f, hv f, ?_, ?_, ?_⟩
  · simp only [hg, List.map_map]
    apply List.map_congr_left
    intro specs _
    simp [inspectValueSpecs_eq_map, length_visitGenDecl_VAR]
  · rw [hn]
    simp [varGroupNames, varGroups, oneVarGroup, ValueSpec.Names]
  · rw [hv]
    simp [varGroupValues, varGroups, oneVarGroup, ValueSpec.Values, inspectNodes, intLit,
      inspectNode_Other]

/-- C3, as stated, fails: in the file `var x = 1; var y = 2; var z = 3` of three groups the
level 2 tree still has three `var` groups, with the names `[x]`, `[y]`, `[z]`; the
declarations are those of the parsed file. -/
theorem three_var_groups_stay :
    (varGroups (minifyTree 2 threeVarGroups).Decls).length = 3 ∧
    varGroupNames (minifyTree 2 threeVarGroups).Decls
      = [[goString "x"], [goString "y"], [goString "z"]] ∧
    (minifyTree 2 threeVarGroups).Decls = threeVarGroups.Decls := by
  have h : (minifyTree 2 threeVarGroups).Decls = threeVarGroups.Decls := by
    rw [Decls_minifyTree_two]
    simp [threeVarGroups, varDecl, importSpecsOf, inspectNodes, inspectNode_GenDeclValue,
      visitGenDecl, inspectValueSpecs, inspectValueSpec, inspectOpt, intLit, inspectNode_Other,
      visitIdent_two]
  rw [h]
  simp [threeVarGroups, varDecl, varGroupNames, varGroups, ValueSpec.Names]


theorem minifyTree_one_eq (f : File) :
    minifyTree 1 f
      = { f with Decls :=
            (if (f.Decls.flatMap importSpecsOf).length > 0
              then [Node.GenDeclImport none (f.Decls.flatMap importSpecsOf)] else [])
            ++ f.Decls } := by
  rw [minifyTree_one]
  unfold mergeImports
  simp only [collectImportSpecs_eq]
  split <;> simp

theorem otherDecls_minifyTree_one (f : File) :
    otherDecls (minifyTree 1 f).Decls = otherDecls f.Decls := by
  rw [minifyTree_one_eq]
  simp only [otherDecls, List.filter_append]
  split <;> simp [isImportDecl]

/-- C5, as the code has it: at level 1 neither the merging of `var` specifications nor the
cutting of identifiers is applied, but the consolidation of imports is, at every level. The
package name is that of the parsed file, and the declarations that are no import groups are
those of the parsed file, comments apart: the same in number, kind, order and identifier
names. When the file has an import specification, the first declaration handed to the printer
is an import group with the path literals and the names of all import specifications of the
file in their order; when it has none, the declaration list is that of the parsed file,
comments apart. -/
theorem level_one_tree (f : File) :
    (minifyTree 1 f).Name = f.Name ∧
    withoutCommentsNodes (otherDecls (minifyTree 1 f).Decls)
      = withoutCommentsNodes (otherDecls f.Decls) ∧
    (otherDecls (minifyTree 1 f).Decls).map declKind = (otherDecls f.Decls).map declKind ∧
    identsNodes (otherDecls (minifyTree 1 f).Decls) = identsNodes (otherDecls f.Decls) ∧
    (if (f.Decls.flatMap importSpecsOf).length > 0 then
      (minifyTree 1 f).Decls.head?.map isImportDecl = some true ∧
      (minifyTree 1 f).Decls.head?.map importLiterals
        = some ((f.Decls.flatMap importSpecsOf).map fun s => s.Path) ∧
      (minifyTree 1 f).Decls.head?.map identsNode
        = some ((f.Decls.flatMap importSpecsOf).flatMap fun s => s.Name.toList)
    else
      withoutCommentsNodes (minifyTree 1 f).Decls = withoutCommentsNodes f.Decls ∧
      (minifyTree 1 f).Decls.map declKind = f.Decls.map declKind ∧
      identsNodes (minifyTree 1 f).Decls = identsNodes f.Decls) := by
  refine ⟨?_, ?_, ?_, ?_, ?_⟩
  · rw [minifyTree_one_eq]
  · rw [otherDecls_minifyTree_one]
  · rw [otherDecls_minifyTree_one]
  · rw [otherDecls_minifyTree_one]
  · rw [minifyTree_one_eq]
    split <;> simp [isImportDecl, importLiterals, importSpecsOf, identsNode]

/-- C5, as stated, fails: for `package p; import "m1"; import "m2"; var x = 1` the first
declaration handed to the printer at level 1 is an import group of the two paths `"m1"` and
`"m2"`, the first declaration of the parsed file an import group of the one path `"m1"`. -/
theorem level_one_merges_imports :
    (minifyTree 1 twoImportGroups).Decls.head?.map importLiterals
      = some [goString "\"m1\"", goString "\"m2\""] ∧
    twoImportGroups.Decls.head?.map importLiterals = some [goString "\"m1\""] ∧
    (minifyTree 1 twoImportGroups).Decls.head? ≠ twoImportGroups.Decls.head? := by
  rw [minifyTree_one_eq]
  simp [twoImportGroups, importSpecsOf, importLiterals, importSpec, varDecl]

/-- The group that lines 80-82 put first: at level 2, when the parsed file has an import
specification, the first declaration handed to the printer is an import group whose
specifications are those of all import groups of the parsed file, group after group; when it
has none, no group is added to the declarations that the traversal left. -/
theorem import_consolidation_level_two (f : File) :
    if (f.Decls.flatMap importSpecsOf).length > 0 then
      (minifyTree 2 f).Decls.head? = some (.GenDeclImport none (f.Decls.flatMap importSpecsOf))
    else (minifyTree 2 f).Decls = inspectNodes 2 f.Decls := by
  rw [Decls_minifyTree_two]
  split <;> simp

/-- C2 at the file `package p; import "m1"; var x = 1`: at level 2 the declarations handed to
the printer are the new import group, the import group of the parsed file and the `var`
group, so the list has two import groups, not one: the import group of the parsed file was
not replaced. -/
theorem import_groups_kept :
    (minifyTree 2 oneImportFile).Decls
      = [.GenDeclImport none [importSpec "\"m1\""], .GenDeclImport none [importSpec "\"m1\""],
          varDecl "x" "1"] ∧
    ((minifyTree 2 oneImportFile).Decls.filter isImportDecl).length = 2 := by
  rw [Decls_minifyTree_two]
  simp [oneImportFile, varDecl, importSpecsOf, inspectNodes, inspectNode_GenDeclValue,
    inspectNode_GenDeclImport, isImportDecl, inspectImportSpec_two, visitGenDecl,
    inspectValueSpecs, inspectValueSpec, inspectOpt, visitIdent_two, intLit, inspectNode_Other]

/-- C1 at the file `package p`, `// c`, `var x int`: the tree handed to the printer at level 1
is the parsed tree, the comment is in its `Comments` and is the `Doc` of the declaration. -/
theorem comment_not_removed :
    minifyTree 1 commentedFile = commentedFile ∧
    (minifyTree 1 commentedFile).Comments = [⟨[goString "// c"]⟩] := by
  rw [minifyTree_one_eq]
  simp [commentedFile, importSpecsOf]

/-- C4, with the length in bytes: the tree of level 3 is the tree of level 2 with every
identifier that has more than three bytes cut to its first three bytes and every other
identifier as it is, the names that the merging of `var` specifications moved included; the
identifiers of the tree of level 2 are identifiers of the parsed file, with their names; no
identifier of the tree of level 3 has more than three bytes. -/
theorem identifiers_level_three (f : File) :
    minifyTree 3 f = mapIdentsFile firstThree (minifyTree 2 f) ∧
    identsFile (minifyTree 3 f) = (identsFile (minifyTree 2 f)).map firstThree ∧
    (∀ name ∈ identsFile (minifyTree 2 f), name ∈ identsFile f) ∧
    (∀ name ∈ identsFile (minifyTree 3 f), name.length ≤ 3) := by
  refine ⟨minifyTree_three f, ?_, idents_minifyTree_two f, ?_⟩
  · rw [minifyTree_three, identsFile_mapIdents]
  · rw [minifyTree_three, identsFile_mapIdents]
    intro name h
    obtain ⟨a, _, rfl⟩ := List.mem_map.1 h
    exact length_firstThree a

/-- C4, as stated, fails for characters: the variable of `package p; var 日本語 int` has a
name of three characters, which is nine bytes; at level 3 it is cut to its first three bytes,
the one character `日`. -/
theorem three_characters_cut :
    "日本語".length = 3 ∧
    identsFile unicodeFile = [goString "p", goString "日本語", goString "int"] ∧
    identsFile (minifyTree 3 unicodeFile) = [goString "p", goString "日", goString "int"] := by
  refine ⟨by decide, ?_, ?_⟩
  · simp [identsFile, unicodeFile, identsNodes, identsNode, identsValueSpecs, identsValueSpec,
      identsOpt]
  · have h : minifyTree 2 unicodeFile = unicodeFile := by
      rw [minifyTree_of_gt 2 (by decide)]
      simp [mergeImports, collectImportSpecs, inspectFile, unicodeFile, inspectNodes,
        inspectNode_GenDeclValue, visitGenDecl, inspectValueSpecs, inspectValueSpec,
        inspectOpt, inspectNode_Ident, visitIdent_two]
    rw [minifyTree_three, identsFile_mapIdents, h]
    simp only [identsFile, unicodeFile, identsNodes, identsNode, identsValueSpecs,
      identsValueSpec, identsOpt]
    decide

/-! ## The claim on the whitespace pass -/

/-- The text that the four replacements return has no tab, newline, form feed or carriage
return: it is one line. -/
theorem removeWhitespace_one_line (s : GoString) :
    (0x09 : UInt8) ∉ removeWhitespace s ∧ (0x0A : UInt8) ∉ removeWhitespace s ∧
    (0x0C : UInt8) ∉ removeWhitespace s ∧ (0x0D : UInt8) ∉ removeWhitespace s := by
  have h := (removeWhitespace_facts s).1
  refine ⟨fun m => ?_, fun m => ?_, fun m => ?_, fun m => ?_⟩ <;>
    exact absurd (h _ m (by decide)) (by decide)

/-- C6: in the text that the four replacements return, a whitespace byte (`\s`, one of tab,
newline, form feed, carriage return, space) is a space, no two spaces are neighbours, no space
follows an opening brace or a semicolon, no space precedes a closing brace, and the bytes
that are not whitespace are those of the input, in their order. -/
theorem removeWhitespace_spec (s : GoString) :
    (∀ b ∈ removeWhitespace s, isSpace b = true → b = 0x20) ∧
    ((removeWhitespace s).Chain' fun a b => ¬(a = 0x20 ∧ b = 0x20)) ∧
    ((removeWhitespace s).Chain' fun a b => a = 0x7B ∨ a = 0x3B → b ≠ 0x20) ∧
    ((removeWhitespace s).Chain' fun a b => b = 0x7D → a ≠ 0x20) ∧
    (removeWhitespace s).filter (fun b => !isSpace b) = s.filter (fun b => !isSpace b) := by
  obtain ⟨h1, h2, h3, h4, h5, h6⟩ := removeWhitespace_facts s
  have sp : isSpace 0x20 = true := by decide
  refine ⟨h1, ?_, ?_, ?_, h6⟩
  · refine List.Chain'.imp ?_ h2
    rintro a b h ⟨rfl, rfl⟩
    exact h ⟨sp, sp⟩
  · refine List.Chain'.imp ?_ (chain'_and _ h3 h5)
    rintro a b ⟨hb, hs⟩ ha rfl
    rcases ha with ha | ha
    · simp [hb ha] at sp
    · simp [hs ha] at sp
  · refine List.Chain'.imp ?_ h4
    rintro a b h hb rfl
    simp [h hb] at sp


/-! ## The claims on `collectFiles` and on the bundle -/

theorem minify_example (code : GoString) :
    minifyGoCode packageOnly printName code 2 = .ok (removeWhitespace code) := by
  simp [minifyGoCode, packageOnly, printName, minifyTree_of_gt, inspectFile, inspectNodes,
    mergeImports, collectImportSpecs, visitIdent_two]

theorem removeWhitespace_A : removeWhitespace (goString "A") = goString "A" := by
  have h : goString "A" = [65] := by decide
  rw [h]
  simp [removeWhitespace, replaceAll, matchSpaces, matchBraceSpaces, matchSpacesBrace,
    matchSemiSpaces, spaceRun, isSpace]

theorem removeWhitespace_B : removeWhitespace (goString "B") = goString "B" := by
  have h : goString "B" = [66] := by decide
  rw [h]
  simp [removeWhitespace, replaceAll, matchSpaces, matchBraceSpaces, matchSpacesBrace,
    matchSemiSpaces, spaceRun, isSpace]

/-- The bookkeeping of lines 140-147: after `collectFiles`, `meta.I` holds the import paths of
the files whose second parse succeeded, each once, in the order of their first occurrence, and
`meta.S[p]` holds the relative paths of those files whose second parse gave the package name
`p`, in the order of the walk. -/
theorem collectFiles_accumulates {ε : Type} (parse : GoString → Except ε File)
    (print : File → Except ε GoString) (parseImports : GoString → Except ε Header)
    (level : Int) (entries : List (GoString × GoString)) :
    (collectFiles parse print parseImports level entries).1.I
      = firstOccurrences
          (importPaths (reparsed parseImports (processed parse print level entries))) ∧
    (collectFiles parse print parseImports level entries).1.I.Nodup ∧
    (∀ x, x ∈ (collectFiles parse print parseImports level entries).1.I
      ↔ x ∈ importPaths (reparsed parseImports (processed parse print level entries))) ∧
    (∀ p, (GoMap.get (collectFiles parse print parseImports level entries).1.S p).getD []
      = ((reparsed parseImports (processed parse print level entries)).filter
          fun h => decide (h.2.Name = p)).map (·.1)) := by
  have hI : (collectFiles parse print parseImports level entries).1.I
      = firstOccurrences
          (importPaths (reparsed parseImports (processed parse print level entries))) := by
    simp only [collectFiles, walkFiles_eq, allImports_foldl, foldl_add_eq]
    simp
  refine ⟨hI, ?_, ?_, ?_⟩
  · rw [hI]; exact nodup_firstOccurrences _
  · intro x; rw [hI]; exact mem_firstOccurrences _ x
  · intro p
    simp only [collectFiles, walkFiles_eq, S_foldl]
    simp [GoMap.get]

theorem minifyGoCode_ok {ε : Type} (parse : GoString → Except ε File)
    (print : File → Except ε GoString) (code : GoString) (level : Int) (minified : GoString)
    (h : minifyGoCode parse print code level = .ok minified) :
    ∃ text, minified = removeWhitespace text := by
  unfold minifyGoCode at h
  split at h
  · cases h
  · split at h
    · cases h
    · exact ⟨_, (Except.ok.inj h).symm⟩

theorem processed_one_line {ε : Type} (parse : GoString → Except ε File)
    (print : File → Except ε GoString) (level : Int) (entries : List (GoString × GoString)) :
    ∀ e ∈ processed parse print level entries, (0x0A : UInt8) ∉ e.2 := by
  induction entries with
  | nil => simp [processed]
  | cons e rest ih =>
    obtain ⟨relPath, content⟩ := e
    unfold processed
    cases h : minifyGoCode parse print content level with
    | error err => simp
    | ok minified =>
      intro e he
      rcases List.mem_cons.1 he with rfl | he
      · obtain ⟨text, hm⟩ := minifyGoCode_ok parse print content level minified h
        simp only [hm]
        exact (removeWhitespace_one_line text).2.1
      · exact ih e he

theorem foldl_recordFile_of_failure {ε : Type} (parseImports : GoString → Except ε Header)
    (files : List (GoString × GoString)) (st : Collected)
    (hfail : ∀ e ∈ files, ∃ err, parseImports e.2 = .error err) :
    (files.foldl (fun st e => recordFile parseImports st e.1 e.2) st).S = st.S ∧
    (files.foldl (fun st e => recordFile parseImports st e.1 e.2) st).allImports
      = st.allImports := by
  induction files generalizing st with
  | nil => simp
  | cons e rest ih =>
    obtain ⟨err, he⟩ := hfail e (List.mem_cons_self _ _)
    have hr : recordFile parseImports st e.1 e.2
        = { st with files := st.files.set e.1 e.2 } := by
      simp [recordFile, he]
    rw [List.foldl_cons, hr]
    exact ih _ (fun x hx => hfail x (List.mem_cons_of_mem _ hx))

/-- C7 where the second parse fails: every text that `collectFiles` hands to the second parse
is the result of the four replacements and has no newline; when the second parse fails for
each of them, as `go/parser` does for such a text as soon as an import or a declaration
follows the package clause, `meta.S` stays empty and `meta.I` stays `nil`, whatever packages
and imports the files declare. -/
theorem metadata_empty_after_failed_second_parse {ε : Type} (parse : GoString → Except ε File)
    (print : File → Except ε GoString) (parseImports : GoString → Except ε Header)
    (level : Int) (entries : List (GoString × GoString))
    (hfail : ∀ e ∈ processed parse print level entries, ∃ err, parseImports e.2 = .error err) :
    (∀ e ∈ processed parse print level entries, (0x0A : UInt8) ∉ e.2) ∧
    (collectFiles parse print parseImports level entries).1.S = [] ∧
    (collectFiles parse print parseImports level entries).1.I = [] ∧
    (∀ p, GoMap.get (collectFiles parse print parseImports level entries).1.S p = none) := by
  have h := foldl_recordFile_of_failure parseImports (processed parse print level entries)
    { S := [], files := [], allImports := [] } hfail
  have hS : (collectFiles parse print parseImports level entries).1.S = [] := by
    simp only [collectFiles, walkFiles_eq]
    exact h.1
  refine ⟨processed_one_line parse print level entries, hS, ?_, ?_⟩
  · simp only [collectFiles, walkFiles_eq]
    exact h.2
  · intro p
    rw [hS]
    rfl

/-- An instance of C7 where the second parse fails, with stand-ins for the libraries: the walk
over `a.go` and `b.go` with the texts of the two files of the claim. -/
theorem metadata_empty_after_failed_second_parse_example :
    (collectFiles packageOnly printName rejectHeader 2
        [(goString "a.go", goString "package p\n\nimport \"m1\"\nimport \"m1\"\n"),
         (goString "b.go", goString "package p\n\nimport \"m2\"\n")]).1.S = [] ∧
    (collectFiles packageOnly printName rejectHeader 2
        [(goString "a.go", goString "package p\n\nimport \"m1\"\nimport \"m1\"\n"),
         (goString "b.go", goString "package p\n\nimport \"m2\"\n")]).1.I = [] :=
  ⟨(metadata_empty_after_failed_second_parse packageOnly printName rejectHeader 2 _
      (fun _ _ => ⟨(), rfl⟩)).2.1,
   (metadata_empty_after_failed_second_parse packageOnly printName rejectHeader 2 _
      (fun _ _ => ⟨(), rfl⟩)).2.2.1⟩

/-- C9: when `minifyGoCode` returns a text for a file and the second parse of that text fails,
the walk stores the text under the relative path of the file, leaves `meta.S` and the import
list as they were, and goes on with the next file; for a last file it ends without error. -/
theorem reparse_failure_is_skipped {ε : Type} (parse : GoString → Except ε File)
    (print : File → Except ε GoString) (parseImports : GoString → Except ε Header)
    (level : Int) (st : Collected) (relPath content minified : GoString) (err : ε)
    (rest : List (GoString × GoString))
    (hmin : minifyGoCode parse print content level = .ok minified)
    (hparse : parseImports minified = .error err) :
    walkFiles parse print parseImports level st ((relPath, content) :: rest)
      = walkFiles parse print parseImports level
          { st with files := st.files.set relPath minified } rest ∧
    walkFiles parse print parseImports level st [(relPath, content)]
      = ({ st with files := st.files.set relPath minified }, none) ∧
    (recordFile parseImports st relPath minified).files.get relPath = some minified ∧
    (recordFile parseImports st relPath minified).S = st.S ∧
    (recordFile parseImports st relPath minified).allImports = st.allImports := by
  have hr : recordFile parseImports st relPath minified
      = { st with files := st.files.set relPath minified } := by
    simp [recordFile, hparse]
  refine ⟨?_, ?_, ?_, ?_, ?_⟩
  · rw [walkFiles]; simp only [hmin, hr]
  · rw [walkFiles]; simp only [hmin, hr, walkFiles]
  · rw [hr]; exact GoMap.get_set_self _ _ _
  · rw [hr]
  · rw [hr]

/-- An instance of C9 with stand-ins for the libraries: the file `a.go` with the text `A`,
whose second parse fails, after a file of package `p` importing `m1`. -/
theorem reparse_failure_is_skipped_example :
    walkFiles packageOnly printName rejectHeader 2
        { S := [(goString "p", [goString "x.go"])], files := [], allImports := [goString "m1"] }
        [(goString "a.go", goString "A")]
      = ({ S := [(goString "p", [goString "x.go"])],
           files := GoMap.set [] (goString "a.go") (goString "A"),
           allImports := [goString "m1"] }, none) :=
  (reparse_failure_is_skipped packageOnly printName rejectHeader 2
    { S := [(goString "p", [goString "x.go"])], files := [], allImports := [goString "m1"] }
    (goString "a.go") (goString "A") (goString "A") () []
    (by rw [minify_example, removeWhitespace_A]) rfl).2.1

theorem bundleOutput_eq (metaJSON : GoString) (ranged : List (GoString × GoString)) :
    bundleOutput metaJSON ranged = bundleText metaJSON ranged := by
  have h : ∀ (acc : GoString) (l : List (GoString × GoString)),
      l.foldl (fun output e => output ++ fileSection e.1 e.2) acc
        = acc ++ l.flatMap fun e => fileSection e.1 e.2 := by
    intro acc l
    induction l generalizing acc with
    | nil => simp
    | cons e l ih => simp only [List.foldl_cons, List.flatMap_cons, ih, List.append_assoc]
  exact h _ _

/-- C8, as the code has it: a text that `createProjectBundle` writes is the JSON text of the
metadata, a newline, and for every file record, once, the line `###FILE:<path>###`, the
transformed text and a newline, the records coming in the order in which `range` yields the
entries of the map `files`, which the language leaves open; every such order gives a text,
and when `files` has at most one record the text is the same on every run. -/
theorem bundle_format {ε : Type} (marshal : BundleMeta → Except ε GoString) (bm : BundleMeta)
    (dependencies : List GoString) (includeMeta : Bool) (files : GoMap GoString) :
    (∀ output, IsBundle marshal bm dependencies includeMeta files output ↔
      ∃ metaJSON ranged, marshal (finalMeta bm dependencies includeMeta) = .ok metaJSON ∧
        ranged.Perm files ∧ output = bundleText metaJSON ranged) ∧
    (∀ metaJSON ranged, marshal (finalMeta bm dependencies includeMeta) = .ok metaJSON →
      ranged.Perm files →
      IsBundle marshal bm dependencies includeMeta files (bundleText metaJSON ranged)) ∧
    (∀ o1 o2, files.length ≤ 1 → IsBundle marshal bm dependencies includeMeta files o1 →
      IsBundle marshal bm dependencies includeMeta files o2 → o1 = o2) := by
  have key : ∀ output, IsBundle marshal bm dependencies includeMeta files output ↔
      ∃ metaJSON ranged, marshal (finalMeta bm dependencies includeMeta) = .ok metaJSON ∧
        ranged.Perm files ∧ output = bundleText metaJSON ranged := by
    intro output
    unfold IsBundle createProjectBundle
    constructor
    · rintro ⟨ranged, hp, h⟩
      cases hm : marshal (finalMeta bm dependencies includeMeta) with
      | error err => rw [hm] at h; cases h
      | ok metaJSON =>
        rw [hm] at h
        exact ⟨metaJSON, ranged, rfl, hp, by rw [← bundleOutput_eq]; exact (Except.ok.inj h).symm⟩
    · rintro ⟨metaJSON, ranged, hm, hp, rfl⟩
      exact ⟨ranged, hp, by rw [hm]; simp only [bundleOutput_eq]⟩
  refine ⟨key, ?_, ?_⟩
  · intro metaJSON ranged hm hp
    exact (key _).2 ⟨metaJSON, ranged, hm, hp, rfl⟩
  · intro o1 o2 hl b1 b2
    obtain ⟨j1, r1, h1, p1, rfl⟩ := (key o1).1 b1
    obtain ⟨j2, r2, h2, p2, rfl⟩ := (key o2).1 b2
    have hj : j1 = j2 := by
      rw [h1] at h2
      exact Except.ok.inj h2
    subst hj
    have hr : ∀ r : List (GoString × GoString), r.Perm files → r = files := by
      intro r pr
      match files, hl, pr with
      | [], _, pr => exact List.Perm.eq_nil pr
      | [e], _, pr => exact List.perm_singleton.1 pr
    rw [hr r1 p1, hr r2 p2]

/-- C8, as stated, fails: after the walk over `a.go` and then `b.go` the map `files` holds the
two records; the text with the section of `b.go` before that of `a.go` is a text that
`createProjectBundle` can write for it, as is the text in the order of the walk, and the two
texts differ. -/
theorem bundle_order_open :
    (collectFiles packageOnly printName rejectHeader 2
        [(goString "a.go", goString "A"), (goString "b.go", goString "B")]).2.1
      = [(goString "a.go", goString "A"), (goString "b.go", goString "B")] ∧
    IsBundle marshalEmpty { D := [], I := [], S := [] } [] false
      [(goString "a.go", goString "A"), (goString "b.go", goString "B")]
      (bundleText (goString "\x7b\x7d")
        [(goString "b.go", goString "B"), (goString "a.go", goString "A")]) ∧
    IsBundle marshalEmpty { D := [], I := [], S := [] } [] false
      [(goString "a.go", goString "A"), (goString "b.go", goString "B")]
      (bundleText (goString "\x7b\x7d")
        [(goString "a.go", goString "A"), (goString "b.go", goString "B")]) ∧
    bundleText (goString "\x7b\x7d")
        [(goString "b.go", goString "B"), (goString "a.go", goString "A")]
      ≠ bundleText (goString "\x7b\x7d")
        [(goString "a.go", goString "A"), (goString "b.go", goString "B")] := by
  refine ⟨?_, ⟨_, List.Perm.swap _ _ _, ?_⟩, ⟨_, List.Perm.refl _, ?_⟩, ?_⟩
  · have hk : ¬ goString "a.go" = goString "b.go" := by decide
    simp [collectFiles, walkFiles, minify_example, removeWhitespace_A, removeWhitespace_B,
      recordFile, rejectHeader, GoMap.set, hk]
  · simp [createProjectBundle, marshalEmpty, bundleOutput_eq]
  · simp [createProjectBundle, marshalEmpty, bundleOutput_eq]
  · decide

end GoLLMBundler
